import Mathlib

/-!
Verification of the parsing core of `obsidian-1dairy` (src/src/parser.ts, middle
revision at lines 365-796, plus the Position Tracker step of
`ImportPdfModal.handleFile`).

Strings are modelled as `List Char` (`Str`).  JavaScript's regular expressions
are modelled by a small backtracking engine (`RE` / `mrun`) whose alternative
order reproduces the JS engine's preference order: alternation is
left-preferred, greedy quantifiers prefer to iterate, lazy quantifiers prefer
to stop, a quantifier iteration that consumes nothing terminates the loop, and
capture groups record the text consumed by their body (last assignment wins,
a skipped optional group leaves the capture unset / `undefined` = `none`).
`String.prototype.match` with a `^...$`-anchored pattern is a full match from
position 0 (`reFull`); an unanchored pattern is matched at the leftmost
possible start position (`reSearch`).

The date-extraction regex of `cleanRepeatedChars`
(`/(\d+)年(\d+)[月⽉](\d+)[日⽇]/`) is embedded by the deterministic
span-based matcher `matchDateAt`/`findDateMatch`: a backtracking `(\d+)`
followed by a non-digit literal can only succeed by taking the whole digit
run, so the greedy regex and the span computation agree, and scanning start
positions left to right gives the leftmost-match rule.
-/

set_option maxRecDepth 6000

namespace OneDiary

abbrev Str := List Char

/-- The character set of JavaScript's `\\s` class (WhiteSpace and
LineTerminator): space, tab, LF, VT, FF, CR, NBSP, U+1680, U+2000..U+200A,
U+2028, U+2029, U+202F, U+205F, U+3000 and U+FEFF. -/
def jsWs (c : Char) : Bool :=
  c = ' ' ∨ c = '\t' ∨ c = '\n' ∨ c = '\r' ∨ c = '\u000b' ∨ c = '\u000c' ∨
  c = '\u00a0' ∨ c = '\u1680' ∨ ('\u2000' ≤ c ∧ c ≤ '\u200a') ∨
  c = '\u2028' ∨ c = '\u2029' ∨ c = '\u202f' ∨ c = '\u205f' ∨
  c = '\u3000' ∨ c = '\ufeff'

/-- JavaScript's `\\d`: the ASCII digits. -/
def isDig (c : Char) : Bool := '0' ≤ c ∧ c ≤ '9'

/-- JavaScript's `.` without the `s` flag: anything but a line terminator
(LF, CR, U+2028, U+2029). -/
def dotc (c : Char) : Bool := ¬ (c = '\n' ∨ c = '\r' ∨ c = '\u2028' ∨ c = '\u2029')

/-- `String.prototype.trim`: drop `\s` characters from both ends. -/
def jsTrim (s : Str) : Str :=
  ((s.dropWhile jsWs).reverse.dropWhile jsWs).reverse

/-- `content.split('\n')`: segments between newline characters (empty segments kept). -/
def splitNl : Str → List Str
  | [] => [[]]
  | c :: r =>
    if c = '\n' then [] :: splitNl r
    else
      match splitNl r with
      | h :: t => (c :: h) :: t
      | [] => [[c]]

/-- `lines.join('\n')`. -/
def joinNl (ls : List Str) : Str := List.intercalate ['\n'] ls

/-- Lift a Lean string literal into the model. -/
def str (s : String) : Str := s.data

/-! ## A JS-faithful backtracking regex engine -/

/-- Regex abstract syntax:  character classes, concatenation, left-preferred
alternation, capture groups, and greedy/lazy Kleene star. -/
inductive RE where
  | eps : RE
  | cls : (Char → Bool) → RE
  | seq : RE → RE → RE
  | alt : RE → RE → RE
  | grp : Nat → RE → RE
  | starG : RE → RE
  | starL : RE → RE

/-- Captures: group index ↦ captured text; a later entry shadows an earlier one. -/
abbrev Caps := List (Nat × Str)

def getCap (i : Nat) (caps : Caps) : Option Str :=
  (caps.find? (fun p => p.1 = i)).map (·.2)

/-- Number of syntax nodes, used to size the engine's fuel. -/
def reSize : RE → Nat
  | .eps => 1
  | .cls _ => 1
  | .seq a b => reSize a + reSize b + 1
  | .alt a b => reSize a + reSize b + 1
  | .grp _ a => reSize a + 1
  | .starG a => reSize a + 1
  | .starL a => reSize a + 1

/-- Backtracking matcher in continuation-passing style.  The first success in
JS preference order wins.  `fuel` only bounds recursion; it is sized so that it
never runs out for the fixed regexes of this file. -/
def mrun : Nat → RE → Str → Caps → (Str → Caps → Option Caps) → Option Caps
  | 0, _, _, _, _ => none
  | _ + 1, .eps, s, caps, k => k s caps
  | _ + 1, .cls _, [], _, _ => none
  | _ + 1, .cls p, c :: s, caps, k => if p c then k s caps else none
  | fuel + 1, .seq a b, s, caps, k =>
    mrun fuel a s caps (fun s1 c1 => mrun fuel b s1 c1 k)
  | fuel + 1, .alt a b, s, caps, k =>
    match mrun fuel a s caps k with
    | some r => some r
    | none => mrun fuel b s caps k
  | fuel + 1, .grp i a, s, caps, k =>
    mrun fuel a s caps (fun s1 c1 => k s1 ((i, s.take (s.length - s1.length)) :: c1))
  | fuel + 1, .starG a, s, caps, k =>
    match mrun fuel a s caps (fun s1 c1 =>
        if s1.length < s.length then mrun fuel (.starG a) s1 c1 k else none) with
    | some r => some r
    | none => k s caps
  | fuel + 1, .starL a, s, caps, k =>
    match k s caps with
    | some r => some r
    | none =>
      mrun fuel a s caps (fun s1 c1 =>
        if s1.length < s.length then mrun fuel (.starL a) s1 c1 k else none)

def reFuel (re : RE) (s : Str) : Nat := (reSize re + 2) * (s.length + 2) * 2

/-- `line.match(re)` for a `^...$`-anchored regex: match the whole string. -/
def reFull (re : RE) (s : Str) : Option Caps :=
  mrun (reFuel re s) re s [] (fun rest caps => if rest.isEmpty then some caps else none)

/-- Match `re` at the start of `s`, any end position (captures of the preferred match). -/
def reAt (re : RE) (s : Str) : Option Caps :=
  mrun (reFuel re s) re s [] (fun _ caps => some caps)

/-- `line.match(re)` for an unanchored regex: leftmost start position wins. -/
def reSearch (re : RE) : Str → Option Caps
  | [] => reAt re []
  | c :: rest =>
    match reAt re (c :: rest) with
    | some caps => some caps
    | none => reSearch re rest

def lit (c : Char) : RE := .cls (fun d => d = c)

def reCat (rs : List RE) : RE := rs.foldr .seq .eps

/-- Greedy `+`. -/
def plusG (a : RE) : RE := .seq a (.starG a)

/-- Greedy `?` (prefer to match). -/
def optG (a : RE) : RE := .alt a .eps

/-- Exact repetition count (the regexes only use widths 2 and 4). -/
def repN : Nat → RE → RE
  | 0, _ => .eps
  | n + 1, a => .seq a (repN n a)

def digit : RE := .cls isDig

def wsC : RE := .cls jsWs

/-! ## The regexes of parser.ts -/

def txtWeekdayChar (c : Char) : Bool :=
  ['一', '二', '三', '四', '五', '六', '日'].contains c

/-- The class `[一二三四五六日⼀⼆⽇]` of the metadata regex:
the weekday characters after the mandatory leading `周` (the last three are
the Kangxi radicals ⼀ U+2F00, ⼆ U+2F06, ⽇ U+2F47). -/
def metaWeekdayChar (c : Char) : Bool :=
  ['一', '二', '三', '四', '五', '六', '日',
   '⼀', '⼆', '⽇'].contains c

def notMiddot (c : Char) : Bool := ¬ c = '·'

def degc (c : Char) : Bool := c = '°' ∨ c = '℃'

/-- Kangxi-radical or CJK month marker, the class `[月⽉]` (U+6708, U+2F49). -/
def yueCls (c : Char) : Bool := c = '月' ∨ c = '⽉'

/-- Kangxi-radical or CJK day marker, the class `[日⽇]` (U+65E5, U+2F47). -/
def riCls (c : Char) : Bool := c = '日' ∨ c = '⽇'

/-- `DATE_LINE_REGEX` of the TXT dialect:
`^(\d{4})年(\d{2})月(\d{2})日\s+(周[一二三四五六日])\s*·?\s*([^·]*?)?\s*·?\s*(-?\d+℃)?\s*·?\s*(.+)?$`. -/
def DATE_LINE_RE : RE := reCat
  [.grp 1 (repN 4 digit), lit '年', .grp 2 (repN 2 digit), lit '月',
   .grp 3 (repN 2 digit), lit '日', plusG wsC,
   .grp 4 (.seq (lit '周') (.cls txtWeekdayChar)),
   .starG wsC, optG (lit '·'), .starG wsC,
   optG (.grp 5 (.starL (.cls notMiddot))),
   .starG wsC, optG (lit '·'), .starG wsC,
   optG (.grp 6 (reCat [optG (lit '-'), plusG digit, lit '℃'])),
   .starG wsC, optG (lit '·'), .starG wsC,
   optG (.grp 7 (plusG (.cls dotc)))]

/-- `PDF_DATE_HEADER_REGEX`: `^#?\s*(\d{4})年(\d{2})月(\d{2})日\s*$`. -/
def PDF_DATE_HEADER_RE : RE := reCat
  [optG (lit '#'), .starG wsC, .grp 1 (repN 4 digit), lit '年',
   .grp 2 (repN 2 digit), lit '月', .grp 3 (repN 2 digit), lit '日', .starG wsC]

/-- `PDF_DATE_LINE_REGEX`: `^(\d{4})年(\d{2})月(\d{2})日\s*$`. -/
def PDF_DATE_LINE_RE : RE := reCat
  [.grp 1 (repN 4 digit), lit '年', .grp 2 (repN 2 digit), lit '月',
   .grp 3 (repN 2 digit), lit '日', .starG wsC]

/-- `PDF_METADATA_LINE_REGEX`:
`^(周[一二三四五六日⼀⼆⽇]+)\s*·\s*(\d{2}:\d{2})\s*·\s*([^·]*?)\s*·\s*(?:(?:(-?\d+[°℃]C?)\s*·\s*)?(.+))$`
(the weekday group has a mandatory leading `周`; the class itself does not
contain `周`). -/
def PDF_METADATA_RE : RE := reCat
  [.grp 1 (.seq (lit '周') (plusG (.cls metaWeekdayChar))),
   .starG wsC, lit '·', .starG wsC,
   .grp 2 (reCat [digit, digit, lit ':', digit, digit]),
   .starG wsC, lit '·', .starG wsC,
   .grp 3 (.starL (.cls notMiddot)),
   .starG wsC, lit '·', .starG wsC,
   optG (reCat [.grp 4 (reCat [optG (lit '-'), plusG digit, .cls degc, optG (lit 'C')]),
                .starG wsC, lit '·', .starG wsC]),
   .grp 5 (plusG (.cls dotc))]

/-- The loose in-line date pattern `/(\d{4})年(\d{2})[月⽉](\d{2})[日⽇]/` (unanchored). -/
def LOOSE_DATE_RE : RE := reCat
  [.grp 1 (repN 4 digit), lit '年', .grp 2 (repN 2 digit), .cls yueCls,
   .grp 3 (repN 2 digit), .cls riCls]

/-- The pre-test `/年.*[月⽉].*[日⽇]/` (unanchored). -/
def LOOSE_TEST_RE : RE := reCat
  [lit '年', .starG (.cls dotc), .cls yueCls, .starG (.cls dotc), .cls riCls]

/-! ## cleanRepeatedChars -/

/-- Marker characters of the cheap-reject test `/年|月|日|⽉|⽇/`. -/
def isDateMarker (c : Char) : Bool :=
  c = '年' ∨ c = '月' ∨ c = '日' ∨ c = '⽉' ∨ c = '⽇'

/-- Deterministic matcher for `/(\d+)年(\d+)[月⽉](\d+)[日⽇]/` anchored at the
start of `cs`; returns `(year, month, day, rest)` on success.  A greedy
`(\d+)` followed by a non-digit terminal must consume the whole digit run, so
no backtracking is needed. -/
def matchDateAt (cs : Str) : Option (Str × Str × Str × Str) :=
  let p1 := cs.span isDig
  if p1.1.isEmpty then none else
  match p1.2 with
  | c0 :: r2 =>
    if c0 = '年' then
      let p2 := r2.span isDig
      if p2.1.isEmpty then none else
      match p2.2 with
      | c :: r4 =>
        if yueCls c then
          let p3 := r4.span isDig
          if p3.1.isEmpty then none else
          match p3.2 with
          | c2 :: r6 => if riCls c2 then some (p1.1, p2.1, p3.1, r6) else none
          | [] => none
        else none
      | [] => none
    else none
  | [] => none

/-- Leftmost match of the date pattern: `(prefix, year, month, day, suffix)`. -/
def findDateMatch : Str → Option (Str × Str × Str × Str × Str)
  | [] => none
  | c :: rest =>
    match matchDateAt (c :: rest) with
    | some (y, m, d, suf) => some ([], y, m, d, suf)
    | none =>
      match findDateMatch rest with
      | some (pre, y, m, d, suf) => some (c :: pre, y, m, d, suf)
      | none => none

/-- The repetition test `/^(\d{w})(\1)+$/`: a `w`-digit block repeated at
least twice, making up the whole string. -/
def isExactRep (w : Nat) (p : Str) : Bool :=
  decide (w < p.length) && decide (p.length % w = 0) && (p.take w).all isDig &&
  decide (p = (List.replicate (p.length / w) (p.take w)).flatten)

/-- Clean one digit group of the date: a group longer than its expected width
`w` is collapsed to its leading repeated block, or truncated to `w` digits. -/
def cleanPart (w : Nat) (p : Str) : Str :=
  if w < p.length then
    if isExactRep w p then p.take w else p.take w
  else p

/-- The post-substitution test `/^\d{4}年\d{2}月\d{2}日\s*$/`. -/
def strictDateCheck : Str → Bool
  | a :: b :: c :: d :: '年' :: e :: f :: '月' :: g :: h :: '日' :: rest =>
    isDig a && isDig b && isDig c && isDig d && isDig e && isDig f &&
    isDig g && isDig h && rest.all jsWs
  | _ => false

/-- `cleanRepeatedChars` of parser.ts: repair duplicated date digits and
normalize Unicode-variant month/day markers in the leftmost date token. -/
def cleanRepeatedChars (text : Str) : Str :=
  if ¬ text.any isDateMarker then text
  else
    match findDateMatch text with
    | none => text
    | some (pre, y, m, d, suf) =>
      let canon := cleanPart 4 y ++ '年' :: (cleanPart 2 m ++ '月' :: (cleanPart 2 d ++ ['日']))
      let cleaned := pre ++ canon ++ suf
      let trimmed := jsTrim cleaned
      if strictDateCheck trimmed then trimmed else cleaned

/-! ## Data model -/

structure DiaryEntry where
  date : Str
  weekday : Str
  time : Option Str := none
  weather : Option Str := none
  temperature : Option Str := none
  location : Option Str := none
  content : Str := []
deriving DecidableEq, Repr

structure ParseResult where
  entries : List DiaryEntry
  errors : List Str
  entryLineRanges : Option (List (Nat × Nat)) := none
deriving DecidableEq, Repr

/-- Model of `x || undefined` for a string `x`. -/
def optNonempty (s : Str) : Option Str := if s = [] then none else some s

/-- `String.prototype.replace` with a plain-string single-character pattern:
replace the first occurrence only. -/
def replaceFirstChar (c : Char) (repl : Str) : Str → Str
  | [] => []
  | d :: rest => if d = c then repl ++ rest else d :: replaceFirstChar c repl rest

/-- Global replacement of a single character by a string (`/x/g`). -/
def replaceAllChar (c : Char) (repl : Str) (s : Str) : Str :=
  s.flatMap (fun d => if d = c then repl else [d])

/-! ## parseTxtDiary -/

/-- Build the new entry of the TXT dialect from the `DATE_LINE_REGEX` captures
(parser.ts lines 558-569). -/
def txtEntryOfCaps (caps : Caps) : DiaryEntry :=
  { date := (getCap 1 caps).getD [] ++ '-' :: ((getCap 2 caps).getD [] ++ '-' :: (getCap 3 caps).getD [])
    weekday := (getCap 4 caps).getD []
    weather := (getCap 5 caps).bind (fun w => optNonempty (jsTrim w))
    temperature := (getCap 6 caps).bind (fun t => optNonempty (replaceFirstChar '℃' (str "°C") t))
    location := (getCap 7 caps).bind (fun l => optNonempty (jsTrim l))
    content := [] }

structure TxtSt where
  entries : List DiaryEntry
  current : Option DiaryEntry
  contentLines : List Str
deriving DecidableEq, Repr

/-- Flush the in-progress TXT entry (parser.ts lines 550-557 and 577-583). -/
def txtFlush (st : TxtSt) : List DiaryEntry :=
  match st.current with
  | some e =>
    let c := jsTrim (joinNl st.contentLines)
    if c = [] then st.entries else st.entries ++ [{ e with content := c }]
  | none => st.entries

/-- One iteration of the parseTxtDiary loop (parser.ts lines 546-575). -/
def txtStep (st : TxtSt) (line : Str) : TxtSt :=
  match reFull DATE_LINE_RE line with
  | some caps =>
    { entries := txtFlush st, current := some (txtEntryOfCaps caps), contentLines := [] }
  | none =>
    match st.current with
    | some _ => { st with contentLines := st.contentLines ++ [line] }
    | none => st

/-- `parseTxtDiary` of parser.ts (lines 536-586). -/
def parseTxtDiary (content : Str) : ParseResult :=
  let lines := splitNl content
  let st := lines.foldl txtStep ⟨[], none, []⟩
  { entries := txtFlush st, errors := [], entryLineRanges := none }

/-! ## Paragraph reflow -/

/-- `SENTENCE_END_REGEX` `/[。.!?！？;:）]$/` as a last-character test. -/
def sentenceEnd (l : Str) : Bool :=
  match l.getLast? with
  | some c => ['。', '.', '!', '?', '！', '？', ';', ':', '）'].contains c
  | none => false

/-- `isInfoLine` of parser.ts (lines 477-484). -/
def isInfoLine (line : Str) : Bool :=
  let t := jsTrim line
  (reFull PDF_DATE_HEADER_RE t).isSome || (reFull PDF_DATE_LINE_RE t).isSome ||
  (reFull PDF_METADATA_RE t).isSome

/-- Reflow state.  The source keeps an array of paragraphs whose last element
is the paragraph under construction; here the state is (earlier paragraphs in
reverse order, current paragraph with its lines in reverse order), so all
activity is at list heads.  `mergeOut` restores source order. -/
abbrev MergeSt := List (List Str) × List Str

/-- One iteration of the reflow loop of `mergeContentLinesToParagraphs`
(parser.ts lines 495-526). -/
def mergeStep (ps : MergeSt) (line : Str) : MergeSt :=
  let trimmed := jsTrim line
  if trimmed = [] then
    match ps.2.head? with
    | some ll => if ¬ isInfoLine ll ∧ sentenceEnd ll then (ps.2 :: ps.1, []) else ps
    | none => ps
  else if isInfoLine line then
    if ps.2.isEmpty then ((trimmed :: ps.2) :: ps.1, [])
    else ([trimmed] :: ps.2 :: ps.1, [])
  else
    match ps.2 with
    | ll :: rest =>
      if ¬ isInfoLine ll ∧ ¬ sentenceEnd ll then (ps.1, (ll ++ trimmed) :: rest)
      else (ps.1, trimmed :: ll :: rest)
    | [] => (ps.1, [trimmed])

/-- Join the reflow state into the output string (parser.ts lines 527-530). -/
def mergeOut (ps : MergeSt) : Str :=
  List.intercalate ['\n', '\n']
    (((ps.2 :: ps.1).reverse.map (fun p => joinNl p.reverse)).filter (fun s => 0 < s.length))

/-- `mergeContentLinesToParagraphs` of parser.ts (lines 492-531). -/
def mergeContentLinesToParagraphs (contentLines : List Str) : Str :=
  if contentLines.isEmpty then []
  else mergeOut (contentLines.foldl mergeStep ([], []))

/-! ## parsePdfDiary -/

/-- The date-header detection chain of parsePdfDiary (lines 625-650): strict
header regex, then the no-`#` variant, both retried on the trimmed line, and
finally the loose anywhere-in-line pattern guarded by its pre-test. -/
def pdfDetectDate (line : Str) : Option Caps :=
  match reFull PDF_DATE_HEADER_RE line with
  | some c => some c
  | none =>
    match reFull PDF_DATE_LINE_RE line with
    | some c => some c
    | none =>
      let t := jsTrim line
      match reFull PDF_DATE_HEADER_RE t with
      | some c => some c
      | none =>
        match reFull PDF_DATE_LINE_RE t with
        | some c => some c
        | none =>
          if (reSearch LOOSE_TEST_RE line).isSome then reSearch LOOSE_DATE_RE line
          else none

def dateOfCaps (caps : Caps) : Str :=
  (getCap 1 caps).getD [] ++ '-' :: ((getCap 2 caps).getD [] ++ '-' :: (getCap 3 caps).getD [])

/-- Weekday normalization of the Kangxi radicals ⼀, ⼆, ⽇
(`.replace(/⼀/g, '一').replace(/⼆/g, '二').replace(/⽇/g, '日')`). -/
def normWeekday (s : Str) : Str :=
  s.map (fun c => if c = '⼀' then '一' else if c = '⼆' then '二' else if c = '⽇' then '日' else c)

/-- Temperature normalization `replace(/℃/g, '°C').replace(/°C/g, '°C')`
(the second replacement rewrites `°C` to itself and is the identity). -/
def normTemp (t : Str) : Str := replaceAllChar '℃' (str "°C") t

/-- Populate the metadata fields of the current entry from the
`PDF_METADATA_LINE_REGEX` captures (parser.ts lines 681-692). -/
def metaUpdate (e : DiaryEntry) (caps : Caps) : DiaryEntry :=
  { e with
    weekday := normWeekday ((getCap 1 caps).getD [])
    time := (getCap 2 caps).bind optNonempty
    weather := (getCap 3 caps).bind (fun w => optNonempty (jsTrim w))
    temperature := (getCap 4 caps).bind (fun t => optNonempty (normTemp t))
    location := (getCap 5 caps).bind (fun l => optNonempty (jsTrim l)) }

/-- JSON.stringify string escaping (for the diagnostic message). -/
def jsonEscChar (c : Char) : Str :=
  if c = '"' then ['\\', '"']
  else if c = '\\' then ['\\', '\\']
  else if c = '\n' then ['\\', 'n']
  else if c = '\r' then ['\\', 'r']
  else if c = '\t' then ['\\', 't']
  else if c = '\x08' then ['\\', 'b']
  else if c = '\x0c' then ['\\', 'f']
  else if c.toNat < 0x20 then
    ['\\', 'u', '0', '0', (Nat.digitChar (c.toNat / 16)), (Nat.digitChar (c.toNat % 16))]
  else [c]

def jsonQuote (s : Str) : Str := '"' :: s.flatMap jsonEscChar ++ ['"']

/-- The diagnostic appended when the expected metadata line is missing
(parser.ts lines 699-702). -/
def mkMetaError (date line : Str) : Str :=
  str "日期 " ++ date ++ str " 后未找到元数据行，跳过元数据解析。实际行内容: " ++ jsonQuote line

structure PdfSt where
  entries : List DiaryEntry
  errors : List Str
  ranges : List (Nat × Nat)
  current : Option DiaryEntry
  currentStartLine : Nat
  contentLines : List Str
  expectingMetadata : Bool
deriving DecidableEq, Repr

def initPdfSt : PdfSt :=
  { entries := [], errors := [], ranges := [], current := none,
    currentStartLine := 0, contentLines := [], expectingMetadata := false }

/-- Flush the in-progress PDF entry, recording its line range
(parser.ts lines 654-661 and 713-720). -/
def pdfFlush (st : PdfSt) (endLine : Nat) : PdfSt :=
  match st.current with
  | some e =>
    let c := jsTrim (mergeContentLinesToParagraphs st.contentLines)
    if c = [] then st
    else
      { st with entries := st.entries ++ [{ e with content := c }],
                ranges := st.ranges ++ [(st.currentStartLine, endLine)] }
  | none => st

/-- Content accumulation guard `if (currentEntry && !expectingMetadata)`
(parser.ts lines 707-710). -/
def pushContent (st : PdfSt) (line : Str) : PdfSt :=
  if st.current.isSome ∧ ¬ st.expectingMetadata then
    { st with contentLines := st.contentLines ++ [line] }
  else st

/-- The date-header branch (parser.ts lines 651-674): flush the previous
entry with end line `i - 1`, then start a new entry at line `i`. -/
def pdfDateBranch (i : Nat) (st : PdfSt) (caps : Caps) : PdfSt :=
  let st := pdfFlush st (i - 1)
  { st with current := some { date := dateOfCaps caps, weekday := [], content := [] },
            currentStartLine := i, contentLines := [], expectingMetadata := true }

/-- The non-date branches (parser.ts lines 676-710): metadata expectation,
diagnostic on a missing metadata line, and content accumulation. -/
def pdfNonDateBranch (st : PdfSt) (line : Str) : PdfSt :=
  if st.expectingMetadata ∧ st.current.isSome then
    match reFull PDF_METADATA_RE line with
    | some mcaps =>
      { st with current := st.current.map (fun e => metaUpdate e mcaps),
                expectingMetadata := false }
    | none =>
      let errors :=
        if jsTrim line = [] then st.errors
        else st.errors ++ [mkMetaError ((st.current.map (·.date)).getD []) line]
      pushContent { st with errors := errors, expectingMetadata := false } line
  else pushContent st line

/-- One iteration of the parsePdfDiary loop (parser.ts lines 616-711): the
raw line is first corruption-repaired, then dispatched. -/
def pdfStep (i : Nat) (st : PdfSt) (rawLine : Str) : PdfSt :=
  match pdfDetectDate (cleanRepeatedChars rawLine) with
  | some caps => pdfDateBranch i st caps
  | none => pdfNonDateBranch st (cleanRepeatedChars rawLine)

def pdfLoop : Nat → PdfSt → List Str → PdfSt
  | _, st, [] => st
  | i, st, l :: ls => pdfLoop (i + 1) (pdfStep i st l) ls

/-- `parsePdfDiary` of parser.ts (lines 601-723). -/
def parsePdfDiary (content : Str) : ParseResult :=
  let lines := splitNl content
  let st := pdfFlush (pdfLoop 0 initPdfSt lines) (lines.length - 1)
  { entries := st.entries, errors := st.errors, entryLineRanges := some st.ranges }

/-! ## Position Tracker (ImportPdfModal.handleFile, part_002 lines 271-282) -/

/-- The page-range mapping step: guarded by
`entryLineRanges && entryLineRanges.length === entries.length`; each range's
line indices are looked up in the `lineToPage` table, out-of-bounds reads
giving `undefined` (`none`) exactly as JS array indexing does. -/
def computeEntryPageRanges (entries : List DiaryEntry)
    (entryLineRanges : Option (List (Nat × Nat))) (lineToPage : List Nat) :
    List (Option Nat × Option Nat) :=
  match entryLineRanges with
  | some rs =>
    if rs.length = entries.length then
      rs.map (fun r => (lineToPage.get? r.1, lineToPage.get? r.2))
    else []
  | none => []

/-! ## Checkers for the spec's content invariant -/

/-- A blank line in the sense of the spec: empty or whitespace-only. -/
def isBlankLine (l : Str) : Bool := jsTrim l = []

/-- No two consecutive blank lines. -/
def noAdjacentBlanks : List Str → Bool
  | a :: b :: r => (¬ (isBlankLine a ∧ isBlankLine b)) && noAdjacentBlanks (b :: r)
  | _ => true

/-- The claimed interior invariant: no blank-line run longer than one line. -/
def contentBlankRunsOk (content : Str) : Bool := noAdjacentBlanks (splitNl content)

/-- The claimed edge invariant: no leading or trailing blank line. -/
def contentEdgesOk (content : Str) : Bool :=
  (match (splitNl content).head? with
   | some h => ¬ isBlankLine h
   | none => true) &&
  (match (splitNl content).getLast? with
   | some h => ¬ isBlankLine h
   | none => true)

/-! ## Whitespace and line-splitting toolkit -/

lemma jsTrim_def' (s : Str) : jsTrim s = (s.dropWhile jsWs).rdropWhile jsWs := rfl

lemma dropWhile_all_iff {p : Char → Bool} {s : Str} :
    (∀ c ∈ s.dropWhile p, p c = true) ↔ ∀ c ∈ s, p c = true := by
  constructor
  · intro h c hc
    rcases List.mem_append.mp ((List.takeWhile_append_dropWhile p s) ▸ hc)
      with hc' | hc'
    · exact List.mem_takeWhile_imp hc'
    · exact h c hc'
  · intro h c hc
    exact h c ((List.dropWhile_sublist p).subset hc)

lemma jsTrim_eq_nil_iff {s : Str} : jsTrim s = [] ↔ ∀ c ∈ s, jsWs c = true := by
  rw [jsTrim_def', List.rdropWhile_eq_nil_iff]
  exact dropWhile_all_iff

lemma jsTrim_head?_not {s : Str} {c : Char} (h : (jsTrim s).head? = some c) :
    jsWs c = false := by
  rw [jsTrim_def'] at h
  have hpre := List.rdropWhile_prefix jsWs (s.dropWhile jsWs)
  rcases hd : (s.dropWhile jsWs).rdropWhile jsWs with _ | ⟨x, xs⟩
  · rw [hd] at h
    exact absurd h (by simp)
  · rw [hd] at h
    simp only [List.head?_cons, Option.some.injEq] at h
    subst h
    rw [hd] at hpre
    obtain ⟨t, ht⟩ := hpre
    have hne : s.dropWhile jsWs ≠ [] := by
      intro hnil
      rw [hnil] at ht
      exact absurd ht.symm (by simp)
    have hd2 : s.dropWhile jsWs = x :: (xs ++ t) := ht.symm
    have hh := List.head_dropWhile_not jsWs s hne
    simp only [hd2, List.head_cons] at hh
    exact hh

lemma jsTrim_getLast?_not {s : Str} {c : Char} (h : (jsTrim s).getLast? = some c) :
    jsWs c = false := by
  rw [jsTrim_def'] at h
  have hne : (s.dropWhile jsWs).rdropWhile jsWs ≠ [] := by
    intro hnil
    rw [hnil] at h
    exact absurd h (by simp)
  have := List.rdropWhile_last_not jsWs (s.dropWhile jsWs) hne
  rw [List.getLast?_eq_getLast _ hne] at h
  simp only [Option.some.injEq] at h
  subst h
  simpa using this

lemma jsTrim_eq_self {s : Str}
    (h1 : ∀ c, s.head? = some c → jsWs c = false)
    (h2 : ∀ c, s.getLast? = some c → jsWs c = false) : jsTrim s = s := by
  rcases hs : s with _ | ⟨x, xs⟩
  · rfl
  · rw [jsTrim_def']
    have hx : jsWs x = false := h1 x (by rw [hs]; rfl)
    have hdw : (x :: xs).dropWhile jsWs = x :: xs := by
      rw [List.dropWhile_cons_of_neg (by simp [hx])]
    rw [hdw, List.rdropWhile_eq_self_iff]
    intro hl
    have := h2 _ (by rw [hs, List.getLast?_eq_getLast _ hl])
    simp [this]

lemma jsTrim_idem (s : Str) : jsTrim (jsTrim s) = jsTrim s :=
  jsTrim_eq_self (fun _ h => jsTrim_head?_not h) (fun _ h => jsTrim_getLast?_not h)

lemma jsTrim_subset {s : Str} {c : Char} (h : c ∈ jsTrim s) : c ∈ s := by
  rw [jsTrim_def'] at h
  exact (List.dropWhile_sublist jsWs).subset
    (( List.rdropWhile_prefix jsWs (s.dropWhile jsWs)).sublist.subset h)

lemma trimFix_append {x y : Str} (hx : x ≠ []) (hy : y ≠ [])
    (htx : jsTrim x = x) (hty : jsTrim y = y) : jsTrim (x ++ y) = x ++ y := by
  apply jsTrim_eq_self
  · intro c hc
    rcases hx' : x with _ | ⟨a, as⟩
    · exact absurd hx' hx
    · rw [hx'] at hc
      simp only [List.cons_append, List.head?_cons, Option.some.injEq] at hc
      subst hc
      exact jsTrim_head?_not (by rw [htx, hx']; rfl)
  · intro c hc
    rw [List.getLast?_append_of_ne_nil x hy] at hc
    exact jsTrim_getLast?_not (by rw [hty]; exact hc)

lemma rdropWhile_append_left {p : Char → Bool} {x : Str}
    (hl : ∀ c, x.getLast? = some c → p c = false) (t : Str) :
    (x ++ t).rdropWhile p = x ++ t.rdropWhile p := by
  induction t using List.reverseRecOn with
  | nil =>
    simp only [List.append_nil, List.rdropWhile_nil]
    rw [List.rdropWhile_eq_self_iff]
    intro hx
    have := hl _ (List.getLast?_eq_getLast _ hx)
    simp [this]
  | append_singleton t a ih =>
    by_cases hp : p a = true
    · rw [← List.append_assoc, List.rdropWhile_concat_pos p (x ++ t) a hp,
        List.rdropWhile_concat_pos p t a hp, ih]
    · rw [← List.append_assoc, List.rdropWhile_concat_neg p (x ++ t) a hp,
        List.rdropWhile_concat_neg p t a hp, List.append_assoc]

lemma jsTrim_append_right {x : Str} (hx : x ≠ []) (htx : jsTrim x = x) (t : Str) :
    jsTrim (x ++ t) = x ++ t.rdropWhile jsWs := by
  rcases hx' : x with _ | ⟨a, as⟩
  · exact absurd hx' hx
  · have ha : jsWs a = false := jsTrim_head?_not (by rw [htx, hx']; rfl)
    rw [jsTrim_def', List.cons_append, List.dropWhile_cons_of_neg (by simp [ha]),
      ← List.cons_append]
    exact rdropWhile_append_left
      (fun c hc => jsTrim_getLast?_not (by rw [htx, hx']; exact hc)) t

lemma splitNl_cons (c : Char) (r : Str) :
    splitNl (c :: r) = if c = '\n' then [] :: splitNl r
      else match splitNl r with | h :: t => (c :: h) :: t | [] => [[c]] := rfl

lemma splitNl_ne_nil (s : Str) : splitNl s ≠ [] := by
  induction s with
  | nil => simp [splitNl]
  | cons c r ih =>
    rw [splitNl_cons]
    by_cases h : c = '\n'
    · simp [h]
    · rw [if_neg h]
      rcases hr : splitNl r with _ | ⟨x, xs⟩
      · exact absurd hr ih
      · simp

lemma getLast?_cons_of_ne {α : Type} (a : α) {l : List α} (h : l ≠ []) :
    (a :: l).getLast? = l.getLast? := by
  rcases l with _ | ⟨b, t⟩
  · exact absurd rfl h
  · exact List.getLast?_cons_cons

lemma splitNl_append_nl (a b : Str) : splitNl (a ++ '\n' :: b) = splitNl a ++ splitNl b := by
  induction a with
  | nil => simp [splitNl]
  | cons c a' ih =>
    rw [List.cons_append, splitNl_cons, splitNl_cons]
    by_cases h : c = '\n'
    · rw [if_pos h, if_pos h, ih]
      rfl
    · rw [if_neg h, if_neg h, ih]
      rcases ha : splitNl a' with _ | ⟨x, xs⟩
      · exact absurd ha (splitNl_ne_nil a')
      · simp

lemma splitNl_no_nl (s : Str) (h : '\n' ∉ s) : splitNl s = [s] := by
  induction s with
  | nil => rfl
  | cons c r ih =>
    have hc : ¬ c = '\n' := fun hc => h (hc ▸ List.mem_cons_self c r)
    rw [splitNl_cons, if_neg hc, ih (fun hm => h (List.mem_cons_of_mem c hm))]

lemma joinNl_cons₂ (l l' : Str) (ls : List Str) :
    joinNl (l :: l' :: ls) = l ++ '\n' :: joinNl (l' :: ls) := by
  simp [joinNl, List.intercalate, List.intersperse]

lemma splitNl_joinNl (ls : List Str) (hne : ls ≠ []) (h : ∀ l ∈ ls, '\n' ∉ l) :
    splitNl (joinNl ls) = ls := by
  induction ls with
  | nil => exact absurd rfl hne
  | cons l ls ih =>
    rcases ls with _ | ⟨l', ls'⟩
    · have : joinNl [l] = l := by simp [joinNl, List.intercalate, List.intersperse]
      rw [this]
      exact splitNl_no_nl l (h l (List.mem_cons_self l []))
    · rw [joinNl_cons₂, splitNl_append_nl, splitNl_no_nl l (h l (by simp)),
        ih (by simp) (fun x hx => h x (List.mem_cons_of_mem l hx))]
      rfl

lemma splitNl_mem_no_nl (s : Str) : ∀ l ∈ splitNl s, '\n' ∉ l := by
  induction s with
  | nil =>
    intro l hl
    simp only [splitNl, List.mem_singleton] at hl
    simp [hl]
  | cons c r ih =>
    intro l hl
    rw [splitNl_cons] at hl
    by_cases h : c = '\n'
    · rw [if_pos h] at hl
      rcases List.mem_cons.mp hl with hl | hl
      · simp [hl]
      · exact ih l hl
    · rw [if_neg h] at hl
      rcases hr : splitNl r with _ | ⟨x, xs⟩
      · exact absurd hr (splitNl_ne_nil r)
      · rw [hr] at hl
        rcases List.mem_cons.mp hl with hl | hl
        · subst hl
          intro hm
          rcases List.mem_cons.mp hm with hm | hm
          · exact h hm.symm
          · exact ih x (by rw [hr]; exact List.mem_cons_self x xs) hm
        · exact ih l (by rw [hr]; exact List.mem_cons_of_mem x hl)

lemma splitNl_head_shape (s : Str) (c : Char) (hc : s.head? = some c) (hnl : ¬ c = '\n') :
    ∃ h t, splitNl s = (c :: h) :: t := by
  rcases s with _ | ⟨x, r⟩
  · exact absurd hc (by simp)
  · simp only [List.head?_cons, Option.some.injEq] at hc
    subst hc
    rw [splitNl_cons, if_neg hnl]
    rcases hr : splitNl r with _ | ⟨y, ys⟩
    · exact absurd hr (splitNl_ne_nil r)
    · exact ⟨y, ys, rfl⟩

lemma splitNl_getLast_mem (s : Str) (c : Char) (hc : s.getLast? = some c)
    (hnl : ¬ c = '\n') : ∃ L, (splitNl s).getLast? = some L ∧ c ∈ L := by
  induction s with
  | nil => exact absurd hc (by simp)
  | cons x r ih =>
    rcases hr : r with _ | ⟨y, r'⟩
    · subst hr
      simp only [List.getLast?_singleton, Option.some.injEq] at hc
      subst hc
      refine ⟨[x], ?_, by simp⟩
      rw [splitNl_cons, if_neg hnl]
      rfl
    · subst hr
      have hc' : (y :: r').getLast? = some c := by
        rw [getLast?_cons_of_ne x (by simp)] at hc
        exact hc
      obtain ⟨L, hL, hcL⟩ := ih hc'
      by_cases hx : x = '\n'
      · refine ⟨L, ?_, hcL⟩
        rw [splitNl_cons, if_pos hx, getLast?_cons_of_ne _ (splitNl_ne_nil _)]
        exact hL
      · rw [splitNl_cons, if_neg hx]
        rcases hsr : splitNl (y :: r') with _ | ⟨z, zs⟩
        · exact absurd hsr (splitNl_ne_nil _)
        · rw [hsr] at hL
          rcases zs with _ | ⟨w, ws⟩
          · simp only [List.getLast?_singleton, Option.some.injEq] at hL
            exact ⟨x :: z, by simp, List.mem_cons_of_mem x (by rw [hL]; exact hcL)⟩
          · refine ⟨L, ?_, hcL⟩
            rw [List.getLast?_cons_cons]
            rw [List.getLast?_cons_cons] at hL
            exact hL

lemma nonblank_of_mem_nonWs {l : Str} {c : Char} (hc : c ∈ l) (hw : jsWs c = false) :
    isBlankLine l = false := by
  rw [isBlankLine]
  simp only [decide_eq_false_iff_not]
  intro h
  rw [jsTrim_eq_nil_iff] at h
  rw [h c hc] at hw
  exact Bool.noConfusion hw

/-- Edge invariant from trim-fixedness: a nonempty trim-fixed string starts
and ends with a non-whitespace character, so its first and last lines are not
blank. -/
lemma trimFixed_edges {s : Str} (hs : s ≠ []) (h : jsTrim s = s) :
    contentEdgesOk s = true := by
  rcases hhead : s.head? with _ | c
  · rcases s with _ | ⟨x, r⟩
    · exact absurd rfl hs
    · exact absurd hhead (by simp)
  · have hcw : jsWs c = false := jsTrim_head?_not (h.symm ▸ hhead)
    have hcnl : ¬ c = '\n' := by
      intro hc
      subst hc
      simp [jsWs] at hcw
    obtain ⟨h1, t1, hshape⟩ := splitNl_head_shape s c hhead hcnl
    rcases hlast : s.getLast? with _ | c'
    · rcases s with _ | ⟨x, r⟩
      · exact absurd rfl hs
      · rw [List.getLast?_eq_getLast _ (by simp)] at hlast
        exact absurd hlast (by simp)
    · have hcw' : jsWs c' = false := jsTrim_getLast?_not (h.symm ▸ hlast)
      have hcnl' : ¬ c' = '\n' := by
        intro hc
        subst hc
        simp [jsWs] at hcw'
      obtain ⟨L, hL, hcL⟩ := splitNl_getLast_mem s c' hlast hcnl'
      rw [contentEdgesOk, hshape]
      rw [hshape] at hL
      simp only [List.head?_cons, hL]
      have e1 : isBlankLine (c :: h1) = false :=
        nonblank_of_mem_nonWs (List.mem_cons_self c h1) hcw
      have e2 : isBlankLine L = false := nonblank_of_mem_nonWs hcL hcw'
      simp [e1, e2]

/-- The relation behind `noAdjacentBlanks`. -/
def nabR (a b : Str) : Prop := ¬ (isBlankLine a = true ∧ isBlankLine b = true)

lemma noAdjacentBlanks_iff {ls : List Str} :
    noAdjacentBlanks ls = true ↔ List.Chain' nabR ls := by
  induction ls with
  | nil => simp [noAdjacentBlanks]
  | cons a tail ih =>
    rcases tail with _ | ⟨b, r⟩
    · simp [noAdjacentBlanks]
    · rw [List.chain'_cons, ← ih]
      simp only [noAdjacentBlanks, Bool.and_eq_true, decide_eq_true_eq]
      constructor
      · rintro ⟨h1, h2⟩
        exact ⟨h1, h2⟩
      · rintro ⟨h1, h2⟩
        exact ⟨h1, h2⟩

/-! ## Reflow-state wellformedness -/

/-- Every line stored in a reflow paragraph is nonempty, already trimmed, and
newline-free. -/
def goodLine (l : Str) : Prop := l ≠ [] ∧ jsTrim l = l ∧ '\n' ∉ l

lemma goodLine_trimmed {l : Str} (h : jsTrim l ≠ []) (hn : '\n' ∉ l) : goodLine (jsTrim l) :=
  ⟨h, jsTrim_idem l, fun hm => hn (jsTrim_subset hm)⟩

lemma goodLine_append {a b : Str} (ha : goodLine a) (hb : goodLine b) : goodLine (a ++ b) :=
  ⟨by simp [ha.1], trimFix_append ha.1 hb.1 ha.2.1 hb.2.1, by
    intro hm
    rcases List.mem_append.mp hm with h | h
    exacts [ha.2.2 h, hb.2.2 h]⟩

lemma goodLine_nonblank {l : Str} (h : goodLine l) : isBlankLine l = false := by
  rw [isBlankLine]
  simp only [decide_eq_false_iff_not]
  rw [h.2.1]
  exact h.1

def goodSt (ps : MergeSt) : Prop :=
  (∀ p ∈ ps.1, ∀ l ∈ p, goodLine l) ∧ ∀ l ∈ ps.2, goodLine l

lemma mergeStep_good {ps : MergeSt} {line : Str} (hps : goodSt ps) (hn : '\n' ∉ line) :
    goodSt (mergeStep ps line) := by
  obtain ⟨h1, h2⟩ := hps
  have hgt : jsTrim line ≠ [] → goodLine (jsTrim line) :=
    fun h => goodLine_trimmed h hn
  by_cases ht : jsTrim line = []
  · rcases hcur : ps.2 with _ | ⟨ll, rest⟩
    · have : mergeStep ps line = ps := by simp [mergeStep, ht, hcur]
      rw [this]
      exact ⟨h1, h2⟩
    · by_cases hbr : ¬ isInfoLine ll ∧ sentenceEnd ll
      · have : mergeStep ps line = ((ll :: rest) :: ps.1, []) := by
          simp [mergeStep, ht, hcur, hbr.1, hbr.2]
        rw [this]
        refine ⟨fun p hp => ?_, by simp⟩
        rcases List.mem_cons.mp hp with hp | hp
        · subst hp
          exact fun l hl => h2 l (hcur ▸ hl)
        · exact h1 p hp
      · have : mergeStep ps line = ps := by
          rcases Decidable.not_and_iff_or_not.mp hbr with hh | hh <;>
            simp [mergeStep, ht, hcur, hh] <;> intro hq <;> simp [hh] at hq ⊢ <;> tauto
        rw [this]
        exact ⟨h1, h2⟩
  · by_cases hinf : isInfoLine line = true
    · rcases hcur : ps.2 with _ | ⟨ll, rest⟩
      · have : mergeStep ps line = ([jsTrim line] :: ps.1, []) := by
          simp [mergeStep, ht, hcur, hinf]
        rw [this]
        refine ⟨fun p hp => ?_, by simp⟩
        rcases List.mem_cons.mp hp with hp | hp
        · subst hp
          intro l hl
          rw [List.mem_singleton] at hl
          subst hl
          exact hgt ht
        · exact h1 p hp
      · have : mergeStep ps line = ([jsTrim line] :: (ll :: rest) :: ps.1, []) := by
          simp [mergeStep, ht, hcur, hinf]
        rw [this]
        refine ⟨fun p hp => ?_, by simp⟩
        rcases List.mem_cons.mp hp with hp | hp
        · subst hp
          intro l hl
          rw [List.mem_singleton] at hl
          subst hl
          exact hgt ht
        · rcases List.mem_cons.mp hp with hp | hp
          · subst hp
            exact fun l hl => h2 l (hcur ▸ hl)
          · exact h1 p hp
    · rcases hcur : ps.2 with _ | ⟨ll, rest⟩
      · have : mergeStep ps line = (ps.1, [jsTrim line]) := by
          simp [mergeStep, ht, hcur, hinf]
        rw [this]
        refine ⟨h1, fun l hl => ?_⟩
        rw [List.mem_singleton] at hl
        subst hl
        exact hgt ht
      · have hll : goodLine ll := h2 ll (hcur ▸ List.mem_cons_self ll rest)
        by_cases hjoin : ¬ isInfoLine ll ∧ ¬ sentenceEnd ll
        · have : mergeStep ps line = (ps.1, (ll ++ jsTrim line) :: rest) := by
            simp [mergeStep, ht, hcur, hinf, hjoin.1, hjoin.2]
          rw [this]
          refine ⟨h1, fun l hl => ?_⟩
          rcases List.mem_cons.mp hl with hl | hl
          · subst hl
            exact goodLine_append hll (hgt ht)
          · exact h2 l (hcur ▸ List.mem_cons_of_mem ll hl)
        · have : mergeStep ps line = (ps.1, jsTrim line :: ll :: rest) := by
            rcases Decidable.not_and_iff_or_not.mp hjoin with hh | hh <;>
              simp [mergeStep, ht, hcur, hinf, hh] <;> intro hq <;>
              simp [hh] at hq ⊢ <;> tauto
          rw [this]
          refine ⟨h1, fun l hl => ?_⟩
          rcases List.mem_cons.mp hl with hl | hl
          · subst hl
            exact hgt ht
          · exact h2 l (hcur ▸ hl)

lemma mergeFold_good {ls : List Str} (h : ∀ l ∈ ls, '\n' ∉ l) :
    ∀ ps : MergeSt, goodSt ps → goodSt (ls.foldl mergeStep ps) := by
  induction ls with
  | nil => exact fun ps hps => hps
  | cons l ls ih =>
    intro ps hps
    exact ih (fun x hx => h x (List.mem_cons_of_mem l hx))
      (mergeStep ps l) (mergeStep_good hps (h l (List.mem_cons_self l ls)))

/-! ## Structure of the reflow output -/

lemma joinNl_one (l : Str) : joinNl [l] = l := by
  simp [joinNl, List.intercalate, List.intersperse]

lemma joinNl_append {A B : List Str} (hA : A ≠ []) (hB : B ≠ []) :
    joinNl (A ++ B) = joinNl A ++ '\n' :: joinNl B := by
  induction A with
  | nil => exact absurd rfl hA
  | cons a A' ih =>
    rcases A' with _ | ⟨a', A''⟩
    · rcases B with _ | ⟨b, B'⟩
      · exact absurd rfl hB
      · rw [List.singleton_append, joinNl_cons₂, joinNl_one]
    · calc joinNl ((a :: a' :: A'') ++ B)
          = a ++ '\n' :: joinNl (a' :: (A'' ++ B)) := joinNl_cons₂ a a' (A'' ++ B)
        _ = a ++ '\n' :: (joinNl (a' :: A'') ++ '\n' :: joinNl B) := by
            rw [show a' :: (A'' ++ B) = (a' :: A'') ++ B from rfl, ih (by simp)]
        _ = joinNl (a :: a' :: A'') ++ '\n' :: joinNl B := by
            rw [joinNl_cons₂ a a' A'']
            simp

lemma joinNl_splitNl (s : Str) : joinNl (splitNl s) = s := by
  induction s with
  | nil => exact joinNl_one []
  | cons c r ih =>
    rw [splitNl_cons]
    by_cases h : c = '\n'
    · rw [if_pos h]
      rcases hr : splitNl r with _ | ⟨x, xs⟩
      · exact absurd hr (splitNl_ne_nil r)
      · rw [← hr, show ([] :: splitNl r) = [([] : Str)] ++ splitNl r from rfl,
          joinNl_append (by simp) (splitNl_ne_nil r), joinNl_one, ih, h]
        rfl
    · rw [if_neg h]
      rcases hr : splitNl r with _ | ⟨x, xs⟩
      · exact absurd hr (splitNl_ne_nil r)
      · rcases xs with _ | ⟨y, ys⟩
        · show joinNl [c :: x] = c :: r
          rw [joinNl_one]
          rw [hr, joinNl_one] at ih
          rw [ih]
        · show joinNl ((c :: x) :: y :: ys) = c :: r
          rw [show ((c :: x) :: y :: ys) = [c :: x] ++ (y :: ys) from rfl,
            joinNl_append (by simp) (by simp), joinNl_one]
          rw [hr, show (x :: y :: ys) = [x] ++ (y :: ys) from rfl,
            joinNl_append (by simp) (by simp), joinNl_one] at ih
          rw [List.cons_append, ih]

lemma intercalate_cons₂ {α : Type} (sep : List α) (a b : List α) (t : List (List α)) :
    List.intercalate sep (a :: b :: t) = a ++ sep ++ List.intercalate sep (b :: t) := by
  simp [List.intercalate, List.intersperse]

lemma intercalate_one {α : Type} (sep : List α) (a : List α) :
    List.intercalate sep [a] = a := by
  simp [List.intercalate, List.intersperse]

lemma chain'_nab_of_nonblank {Q : List Str} (h : ∀ l ∈ Q, isBlankLine l = false) :
    List.Chain' nabR Q := by
  induction Q with
  | nil => exact List.chain'_nil
  | cons a t ih =>
    rcases t with _ | ⟨b, r⟩
    · exact List.chain'_singleton a
    · rw [List.chain'_cons]
      refine ⟨fun hab => ?_, ih (fun l hl => h l (List.mem_cons_of_mem a hl))⟩
      rw [h a (List.mem_cons_self a _)] at hab
      exact Bool.noConfusion hab.1

/-- The line sequence obtained by separating good paragraphs with single blank
lines: nonempty, good first and last lines, newline-free, and with no two
adjacent blank lines. -/
lemma interleave_good (Qs : List (List Str)) (hne : Qs ≠ [])
    (h : ∀ Q ∈ Qs, Q ≠ [] ∧ ∀ l ∈ Q, goodLine l) :
    List.intercalate [([] : Str)] Qs ≠ [] ∧
    (∃ q, (List.intercalate [([] : Str)] Qs).head? = some q ∧ goodLine q) ∧
    (∃ q, (List.intercalate [([] : Str)] Qs).getLast? = some q ∧ goodLine q) ∧
    (∀ l ∈ List.intercalate [([] : Str)] Qs, '\n' ∉ l) ∧
    List.Chain' nabR (List.intercalate [([] : Str)] Qs) := by
  induction Qs with
  | nil => exact absurd rfl hne
  | cons Q Qs ih =>
    obtain ⟨hQne, hQgood⟩ := h Q (List.mem_cons_self Q Qs)
    rcases Qs with _ | ⟨Q', Qs'⟩
    · rw [intercalate_one]
      rcases hq : Q with _ | ⟨q, qt⟩
      · exact absurd hq hQne
      · subst hq
        refine ⟨by simp, ⟨q, by simp, hQgood q (List.mem_cons_self q qt)⟩, ?_, ?_, ?_⟩
        · refine ⟨(q :: qt).getLast (by simp), ?_, ?_⟩
          · rw [List.getLast?_eq_getLast _ (by simp)]
          · exact hQgood _ (List.getLast_mem _)
        · exact fun l hl => (hQgood l hl).2.2
        · exact chain'_nab_of_nonblank (fun l hl => goodLine_nonblank (hQgood l hl))
    · obtain ⟨ih1, ⟨qh, ihh, ihhg⟩, ⟨ql, ihl, ihlg⟩, ihnl, ihch⟩ :=
        ih (by simp) (fun x hx => h x (List.mem_cons_of_mem Q hx))
      rw [intercalate_cons₂]
      have hsplit : Q ++ [([] : Str)] ++ List.intercalate [([] : Str)] (Q' :: Qs') =
          Q ++ (([] : Str) :: List.intercalate [([] : Str)] (Q' :: Qs')) := by
        simp
      rw [hsplit]
      refine ⟨by simp [hQne], ?_, ?_, ?_, ?_⟩
      · rcases hq : Q with _ | ⟨q, qt⟩
        · exact absurd hq hQne
        · subst hq
          exact ⟨q, by simp, hQgood q (List.mem_cons_self q qt)⟩
      · refine ⟨ql, ?_, ihlg⟩
        rw [List.getLast?_append_of_ne_nil Q (by simp),
          getLast?_cons_of_ne _ ih1]
        exact ihl
      · intro l hl
        rcases List.mem_append.mp hl with hl | hl
        · exact (hQgood l hl).2.2
        · rcases List.mem_cons.mp hl with hl | hl
          · simp [hl]
          · exact ihnl l hl
      · rw [List.chain'_append]
        refine ⟨chain'_nab_of_nonblank (fun l hl => goodLine_nonblank (hQgood l hl)),
          ?_, ?_⟩
        · rw [List.chain'_cons']
          refine ⟨fun y hy => ?_, ihch⟩
          rw [ihh] at hy
          simp only [Option.mem_def, Option.some.injEq] at hy
          subst hy
          intro hc
          rw [goodLine_nonblank ihhg] at hc
          exact Bool.noConfusion hc.2
        · intro x hx y hy
          simp only [List.head?_cons, Option.mem_def, Option.some.injEq] at hy
          subst hy
          intro hc
          have hx' : x ∈ Q := by
            rcases hq : Q with _ | ⟨q, qt⟩
            · rw [hq] at hx
              exact absurd hx (by simp)
            · rw [hq] at hx
              rw [List.getLast?_eq_getLast _ (by simp)] at hx
              simp only [Option.mem_def, Option.some.injEq] at hx
              subst hx
              exact List.getLast_mem _
          rw [goodLine_nonblank (hQgood x hx')] at hc
          exact Bool.noConfusion hc.1

/-! ## Structure of the date-pattern matcher -/

lemma matchDateAt_sound {cs y m d rest : Str}
    (h : matchDateAt cs = some (y, m, d, rest)) :
    ∃ mk dk, yueCls mk = true ∧ riCls dk = true ∧
      cs = y ++ '年' :: (m ++ mk :: (d ++ dk :: rest)) ∧
      y ≠ [] ∧ (∀ c ∈ y, isDig c = true) ∧ m ≠ [] ∧ (∀ c ∈ m, isDig c = true) ∧
      d ≠ [] ∧ (∀ c ∈ d, isDig c = true) := by
  unfold matchDateAt at h
  rw [List.span_eq_take_drop] at h
  simp only at h
  by_cases h1 : (cs.takeWhile isDig).isEmpty
  · rw [if_pos h1] at h
    exact absurd h (by simp)
  · rw [if_neg h1] at h
    rcases hd1 : cs.dropWhile isDig with _ | ⟨c1, r2⟩
    · rw [hd1] at h
      exact absurd h (by simp)
    · rw [hd1] at h
      dsimp only at h
      by_cases hc1 : c1 = '年'
      · rw [if_pos hc1] at h
        rw [List.span_eq_take_drop] at h
        simp only at h
        by_cases h2 : (r2.takeWhile isDig).isEmpty
        · rw [if_pos h2] at h
          exact absurd h (by simp)
        · rw [if_neg h2] at h
          rcases hd2 : r2.dropWhile isDig with _ | ⟨c2, r4⟩
          · rw [hd2] at h
            exact absurd h (by simp)
          · rw [hd2] at h
            dsimp only at h
            by_cases hc2 : yueCls c2 = true
            · rw [if_pos hc2] at h
              rw [List.span_eq_take_drop] at h
              simp only at h
              by_cases h3 : (r4.takeWhile isDig).isEmpty
              · rw [if_pos h3] at h
                exact absurd h (by simp)
              · rw [if_neg h3] at h
                rcases hd3 : r4.dropWhile isDig with _ | ⟨c3, r6⟩
                · rw [hd3] at h
                  exact absurd h (by simp)
                · rw [hd3] at h
                  dsimp only at h
                  by_cases hc3 : riCls c3 = true
                  · rw [if_pos hc3] at h
                    simp only [Option.some.injEq, Prod.mk.injEq] at h
                    obtain ⟨hy, hm, hdd, hrest⟩ := h
                    refine ⟨c2, c3, hc2, hc3, ?_, ?_, ?_, ?_, ?_, ?_, ?_⟩
                    · rw [← hy, ← hm, ← hdd, ← hrest]
                      calc cs = cs.takeWhile isDig ++ cs.dropWhile isDig :=
                            (List.takeWhile_append_dropWhile isDig cs).symm
                        _ = cs.takeWhile isDig ++ '年' :: r2 := by rw [hd1, hc1]
                        _ = cs.takeWhile isDig ++ '年' ::
                              (r2.takeWhile isDig ++ r2.dropWhile isDig) := by
                            rw [List.takeWhile_append_dropWhile isDig r2]
                        _ = cs.takeWhile isDig ++ '年' ::
                              (r2.takeWhile isDig ++ c2 :: r4) := by rw [hd2]
                        _ = cs.takeWhile isDig ++ '年' ::
                              (r2.takeWhile isDig ++ c2 ::
                                (r4.takeWhile isDig ++ r4.dropWhile isDig)) := by
                            rw [List.takeWhile_append_dropWhile isDig r4]
                        _ = cs.takeWhile isDig ++ '年' ::
                              (r2.takeWhile isDig ++ c2 ::
                                (r4.takeWhile isDig ++ c3 :: r6)) := by rw [hd3]
                    · rw [← hy]
                      simpa [List.isEmpty_iff] using h1
                    · rw [← hy]
                      exact fun c hc => List.mem_takeWhile_imp hc
                    · rw [← hm]
                      simpa [List.isEmpty_iff] using h2
                    · rw [← hm]
                      exact fun c hc => List.mem_takeWhile_imp hc
                    · rw [← hdd]
                      simpa [List.isEmpty_iff] using h3
                    · rw [← hdd]
                      exact fun c hc => List.mem_takeWhile_imp hc
                  · rw [if_neg hc3] at h
                    exact absurd h (by simp)
            · rw [if_neg hc2] at h
              exact absurd h (by simp)
      · rw [if_neg hc1] at h
        exact absurd h (by simp)

lemma findDateMatch_sound {s pre y m d suf : Str}
    (h : findDateMatch s = some (pre, y, m, d, suf)) :
    ∃ mk dk, yueCls mk = true ∧ riCls dk = true ∧
      s = pre ++ (y ++ '年' :: (m ++ mk :: (d ++ dk :: suf))) ∧
      y ≠ [] ∧ (∀ c ∈ y, isDig c = true) ∧ m ≠ [] ∧ (∀ c ∈ m, isDig c = true) ∧
      d ≠ [] ∧ (∀ c ∈ d, isDig c = true) := by
  induction s generalizing pre with
  | nil => exact absurd h (by simp [findDateMatch])
  | cons c rest ih =>
    rw [findDateMatch] at h
    rcases hm : matchDateAt (c :: rest) with _ | ⟨⟨y', m', d', suf'⟩⟩
    · rw [hm] at h
      rcases hf : findDateMatch rest with _ | ⟨⟨pre', y2, m2, d2, suf2⟩⟩
      · rw [hf] at h
        exact absurd h (by simp)
      · rw [hf] at h
        simp only [Option.some.injEq, Prod.mk.injEq] at h
        obtain ⟨hpre, hy, hm2, hd2, hsuf⟩ := h
        obtain ⟨mk, dk, hmk, hdk, heq, hrest⟩ := ih (by rw [hf, hy, hm2, hd2, hsuf])
        exact ⟨mk, dk, hmk, hdk, by rw [← hpre, List.cons_append, ← heq], hrest⟩
    · rw [hm] at h
      simp only [Option.some.injEq, Prod.mk.injEq] at h
      obtain ⟨hpre, hy, hm2, hd2, hsuf⟩ := h
      obtain ⟨mk, dk, hmk, hdk, heq, hrest⟩ :=
        @matchDateAt_sound _ y m d suf (by rw [hm, hy, hm2, hd2, hsuf])
      exact ⟨mk, dk, hmk, hdk, by rw [← hpre, List.nil_append, heq], hrest⟩

lemma cleanPart_subset {w : Nat} {p : Str} {c : Char} (hc : c ∈ cleanPart w p) : c ∈ p := by
  unfold cleanPart at hc
  split at hc
  · split at hc <;> exact List.take_subset _ _ hc
  · exact hc

/-- Every character of the repaired line is either a character of the original
line or one of the canonical markers substituted by the repair. -/
lemma cleanRepeatedChars_subset {s : Str} {c : Char}
    (hc : c ∈ cleanRepeatedChars s) : c ∈ s ∨ c = '年' ∨ c = '月' ∨ c = '日' := by
  unfold cleanRepeatedChars at hc
  split at hc
  · exact Or.inl hc
  · rcases hf : findDateMatch s with _ | ⟨⟨pre, y, m, d, suf⟩⟩
    · rw [hf] at hc
      exact Or.inl hc
    · rw [hf] at hc
      dsimp only at hc
      obtain ⟨mk, dk, _, _, heq, _⟩ := findDateMatch_sound hf
      have hmem : ∀ x : Char,
          x ∈ pre ++ (cleanPart 4 y ++ '年' :: (cleanPart 2 m ++ '月' ::
            (cleanPart 2 d ++ ['日']))) ++ suf →
          x ∈ s ∨ x = '年' ∨ x = '月' ∨ x = '日' := by
        intro x hx
        rw [heq]
        rcases List.mem_append.mp hx with hx | hx
        · rcases List.mem_append.mp hx with hx | hx
          · exact Or.inl (List.mem_append.mpr (Or.inl hx))
          · rcases List.mem_append.mp hx with hx | hx
            · refine Or.inl (List.mem_append.mpr (Or.inr ?_))
              exact List.mem_append.mpr (Or.inl (cleanPart_subset hx))
            · rcases List.mem_cons.mp hx with hx | hx
              · exact Or.inr (Or.inl hx)
              · rcases List.mem_append.mp hx with hx | hx
                · refine Or.inl (List.mem_append.mpr (Or.inr ?_))
                  refine List.mem_append.mpr (Or.inr (List.mem_cons_of_mem _ ?_))
                  exact List.mem_append.mpr (Or.inl (cleanPart_subset hx))
                · rcases List.mem_cons.mp hx with hx | hx
                  · exact Or.inr (Or.inr (Or.inl hx))
                  · rcases List.mem_append.mp hx with hx | hx
                    · refine Or.inl (List.mem_append.mpr (Or.inr ?_))
                      refine List.mem_append.mpr (Or.inr (List.mem_cons_of_mem _ ?_))
                      refine List.mem_append.mpr (Or.inr (List.mem_cons_of_mem _ ?_))
                      exact List.mem_append.mpr (Or.inl (cleanPart_subset hx))
                    · rcases List.mem_cons.mp hx with hx | hx
                      · exact Or.inr (Or.inr (Or.inr hx))
                      · exact absurd hx (List.not_mem_nil x)
        · refine Or.inl ?_
          refine List.mem_append.mpr (Or.inr ?_)
          refine List.mem_append.mpr (Or.inr (List.mem_cons_of_mem _ ?_))
          refine List.mem_append.mpr (Or.inr (List.mem_cons_of_mem _ ?_))
          exact List.mem_append.mpr (Or.inr (List.mem_cons_of_mem _ hx))
      split at hc
      · exact hmem c (jsTrim_subset hc)
      · exact hmem c hc

lemma nl_not_in_clean {s : Str} (h : '\n' ∉ s) : '\n' ∉ cleanRepeatedChars s := by
  intro hm
  rcases cleanRepeatedChars_subset hm with h' | h' | h' | h'
  · exact h h'
  · exact absurd h' (by decide)
  · exact absurd h' (by decide)
  · exact absurd h' (by decide)

lemma intercalate_ne_nil_of_head {Qs : List (List Str)} {Q : List Str}
    (hq : Q ≠ []) : List.intercalate [([] : Str)] (Q :: Qs) ≠ [] := by
  rcases Qs with _ | ⟨Q', Qs'⟩
  · rw [intercalate_one]
    exact hq
  · rw [intercalate_cons₂]
    simp [hq]

/-- The double-newline join of joined paragraphs equals the single-newline
join of the blank-line-interleaved line sequence. -/
lemma intercalate2_as_joinNl (Qs : List (List Str)) (h : ∀ Q ∈ Qs, Q ≠ []) :
    List.intercalate ['\n', '\n'] (Qs.map joinNl) =
      joinNl (List.intercalate [([] : Str)] Qs) := by
  induction Qs with
  | nil => simp [List.intercalate, joinNl, List.intersperse]
  | cons Q Qs ih =>
    rcases Qs with _ | ⟨Q', Qs'⟩
    · rw [List.map_singleton, intercalate_one, intercalate_one]
    · have hQ : Q ≠ [] := h Q (List.mem_cons_self _ _)
      have hrest : List.intercalate [([] : Str)] (Q' :: Qs') ≠ [] :=
        intercalate_ne_nil_of_head (h Q' (by simp))
      have hmid : joinNl (([] : Str) :: List.intercalate [([] : Str)] (Q' :: Qs')) =
          '\n' :: joinNl (List.intercalate [([] : Str)] (Q' :: Qs')) := by
        rcases hr : List.intercalate [([] : Str)] (Q' :: Qs') with _ | ⟨x, xs⟩
        · exact absurd hr hrest
        · rw [joinNl_cons₂]
          rfl
      calc List.intercalate ['\n', '\n'] ((Q :: Q' :: Qs').map joinNl)
          = joinNl Q ++ ['\n', '\n'] ++
              List.intercalate ['\n', '\n'] ((Q' :: Qs').map joinNl) := by
            rw [List.map_cons, List.map_cons]
            exact intercalate_cons₂ _ _ _ _
        _ = joinNl Q ++ ['\n', '\n'] ++
              joinNl (List.intercalate [([] : Str)] (Q' :: Qs')) := by
            rw [ih (fun x hx => h x (List.mem_cons_of_mem Q hx))]
        _ = joinNl (List.intercalate [([] : Str)] (Q :: Q' :: Qs')) := by
            rw [intercalate_cons₂,
              show Q ++ [([] : Str)] ++ List.intercalate [([] : Str)] (Q' :: Qs') =
                Q ++ (([] : Str) :: List.intercalate [([] : Str)] (Q' :: Qs')) from by simp,
              joinNl_append hQ (by simp), hmid]
            simp

lemma joinNl_head? {L : List Str} {q : Str} (hL : L.head? = some q) (hq : q ≠ []) :
    (joinNl L).head? = q.head? := by
  rcases L with _ | ⟨x, xs⟩
  · exact absurd hL (by simp)
  · simp only [List.head?_cons, Option.some.injEq] at hL
    subst hL
    rcases xs with _ | ⟨y, ys⟩
    · rw [joinNl_one]
    · rw [joinNl_cons₂]
      exact List.head?_append_of_ne_nil _ hq

lemma joinNl_getLast? {L : List Str} {q : Str} (hL : L.getLast? = some q) (hq : q ≠ []) :
    (joinNl L).getLast? = q.getLast? := by
  induction L with
  | nil => exact absurd hL (by simp)
  | cons x xs ih =>
    rcases xs with _ | ⟨y, ys⟩
    · simp only [List.getLast?_singleton, Option.some.injEq] at hL
      subst hL
      rw [joinNl_one]
    · rw [List.getLast?_cons_cons] at hL
      have hjr : joinNl (y :: ys) ≠ [] := by
        rcases ys with _ | ⟨z, zs⟩
        · rw [joinNl_one]
          simp only [List.getLast?_singleton, Option.some.injEq] at hL
          subst hL
          exact hq
        · rw [joinNl_cons₂]
          simp
      rw [joinNl_cons₂, List.getLast?_append_of_ne_nil x (by simp),
        getLast?_cons_of_ne '\n' hjr]
      exact ih hL

/-- The reflow output of a wellformed state is empty or satisfies the content
invariant: trim-fixed, nonblank edges, and no two adjacent blank lines. -/
lemma mergeOut_ok (ps : MergeSt) (h : goodSt ps) :
    mergeOut ps = [] ∨
    (jsTrim (mergeOut ps) = mergeOut ps ∧ contentEdgesOk (mergeOut ps) = true ∧
     contentBlankRunsOk (mergeOut ps) = true) := by
  obtain ⟨h1, h2⟩ := h
  rcases hparts : (((ps.2 :: ps.1).reverse.map (fun p => joinNl p.reverse)).filter
      (fun s => 0 < s.length)) with _ | ⟨p0, prest⟩
  · left
    rw [mergeOut, hparts]
    simp [List.intercalate, List.intersperse]
  · right
    have hspec : ∀ part ∈ (p0 :: prest), splitNl part ≠ [] ∧ ∀ l ∈ splitNl part, goodLine l := by
      intro part hpart
      rw [← hparts] at hpart
      obtain ⟨hmap, hlen⟩ := List.mem_filter.mp hpart
      obtain ⟨p, hp, hpe⟩ := List.mem_map.mp hmap
      have hpgood : ∀ l ∈ p, goodLine l := by
        rcases List.mem_cons.mp (List.mem_reverse.mp hp) with hp' | hp'
        · subst hp'
          exact h2
        · exact h1 p hp'
      have hprne : p.reverse ≠ [] := by
        intro hnil
        rw [← hpe, hnil] at hlen
        simp [joinNl, List.intercalate, List.intersperse] at hlen
      have hsplit : splitNl part = p.reverse := by
        rw [← hpe]
        exact splitNl_joinNl p.reverse hprne
          (fun l hl => (hpgood l (List.mem_reverse.mp hl)).2.2)
      refine ⟨by rw [hsplit]; simpa using hprne, ?_⟩
      rw [hsplit]
      exact fun l hl => hpgood l (List.mem_reverse.mp hl)
    have hQs : ∀ Q ∈ (p0 :: prest).map splitNl, Q ≠ [] ∧ ∀ l ∈ Q, goodLine l := by
      intro Q hQ
      obtain ⟨part, hpart, hpe⟩ := List.mem_map.mp hQ
      rw [← hpe]
      exact hspec part hpart
    have hback : ((p0 :: prest).map splitNl).map joinNl = p0 :: prest := by
      rw [List.map_map]
      have : ∀ part ∈ (p0 :: prest), (joinNl ∘ splitNl) part = id part := by
        intro part _
        exact joinNl_splitNl part
      rw [List.map_congr_left this, List.map_id]
    have hout : mergeOut ps =
        joinNl (List.intercalate [([] : Str)] ((p0 :: prest).map splitNl)) := by
      rw [mergeOut, hparts, ← hback,
        intercalate2_as_joinNl _ (fun Q hQ => (hQs Q hQ).1), hback]
    obtain ⟨hLne, ⟨qh, hqh, hqhg⟩, ⟨ql, hql, hqlg⟩, hLnl, hLch⟩ :=
      interleave_good ((p0 :: prest).map splitNl) (by simp) hQs
    have hsplitL : splitNl (mergeOut ps) =
        List.intercalate [([] : Str)] ((p0 :: prest).map splitNl) := by
      rw [hout]
      exact splitNl_joinNl _ hLne hLnl
    have htrim : jsTrim (mergeOut ps) = mergeOut ps := by
      apply jsTrim_eq_self
      · intro c hc
        rw [hout, joinNl_head? hqh hqhg.1] at hc
        exact jsTrim_head?_not (by rw [hqhg.2.1]; exact hc)
      · intro c hc
        rw [hout, joinNl_getLast? hql hqlg.1] at hc
        exact jsTrim_getLast?_not (by rw [hqlg.2.1]; exact hc)
    refine ⟨htrim, ?_, ?_⟩
    · rw [contentEdgesOk, hsplitL, hqh]
      have hlast : (List.intercalate [([] : Str)] ((p0 :: prest).map splitNl)).getLast? =
          some ql := hql
      rw [hlast]
      simp [goodLine_nonblank hqhg, goodLine_nonblank hqlg]
    · rw [contentBlankRunsOk, hsplitL]
      exact noAdjacentBlanks_iff.mpr hLch

/-- The reflow result, after the caller's outer `.trim()`, is empty or
satisfies the content invariant. -/
lemma merge_checkers (cls : List Str) (h : ∀ l ∈ cls, '\n' ∉ l) :
    jsTrim (mergeContentLinesToParagraphs cls) = [] ∨
    (contentEdgesOk (jsTrim (mergeContentLinesToParagraphs cls)) = true ∧
     contentBlankRunsOk (jsTrim (mergeContentLinesToParagraphs cls)) = true) := by
  by_cases hne : cls.isEmpty
  · left
    rw [mergeContentLinesToParagraphs, if_pos hne]
    rfl
  · rw [mergeContentLinesToParagraphs, if_neg hne]
    have hg : goodSt (cls.foldl mergeStep ([], [])) :=
      mergeFold_good h ([], []) ⟨by simp, by simp⟩
    rcases mergeOut_ok _ hg with h0 | ⟨ht, he, hb⟩
    · left
      rw [h0]
      rfl
    · right
      rw [ht]
      exact ⟨he, hb⟩

def pdfC3Inv (st : PdfSt) : Prop :=
  (∀ l ∈ st.contentLines, '\n' ∉ l) ∧
  ∀ e ∈ st.entries, contentEdgesOk e.content = true ∧ contentBlankRunsOk e.content = true

lemma pdfFlush_c3 {st : PdfSt} (h : pdfC3Inv st) (n : Nat) :
    ∀ e ∈ (pdfFlush st n).entries,
      contentEdgesOk e.content = true ∧ contentBlankRunsOk e.content = true := by
  intro e he
  rcases hc : st.current with _ | e0
  · simp only [pdfFlush, hc] at he
    exact h.2 e he
  · by_cases hz : jsTrim (mergeContentLinesToParagraphs st.contentLines) = []
    · simp only [pdfFlush, hc, hz, if_true] at he
      exact h.2 e he
    · simp only [pdfFlush, hc, if_neg hz] at he
      rcases List.mem_append.mp he with he | he
      · exact h.2 e he
      · rw [List.mem_singleton] at he
        subst he
        rcases merge_checkers st.contentLines h.1 with h0 | hok
        · exact absurd h0 hz
        · exact hok

lemma pushContent_c3 {st : PdfSt} {l : Str} (hl : '\n' ∉ l) (h : pdfC3Inv st) :
    pdfC3Inv (pushContent st l) := by
  unfold pushContent
  split
  · refine ⟨?_, h.2⟩
    intro x hx
    rcases List.mem_append.mp hx with hx | hx
    · exact h.1 x hx
    · rw [List.mem_singleton] at hx
      subst hx
      exact hl
  · exact h

lemma pdfStep_c3 {st : PdfSt} {l : Str} (i : Nat) (hl : '\n' ∉ l) (h : pdfC3Inv st) :
    pdfC3Inv (pdfStep i st l) := by
  have hcl : '\n' ∉ cleanRepeatedChars l := nl_not_in_clean hl
  unfold pdfStep
  cases hd : pdfDetectDate (cleanRepeatedChars l) with
  | some caps =>
    unfold pdfDateBranch
    exact ⟨by simp, fun e he => pdfFlush_c3 h (i - 1) e he⟩
  | none =>
    unfold pdfNonDateBranch
    by_cases hem : st.expectingMetadata = true ∧ st.current.isSome = true
    · rw [if_pos hem]
      cases hm : reFull PDF_METADATA_RE (cleanRepeatedChars l) with
      | some mcaps => exact ⟨h.1, h.2⟩
      | none => exact pushContent_c3 hcl ⟨h.1, h.2⟩
    · rw [if_neg hem]
      exact pushContent_c3 hcl h

lemma pdfLoop_c3 (ls : List Str) (hls : ∀ l ∈ ls, '\n' ∉ l) :
    ∀ (i : Nat) (st : PdfSt), pdfC3Inv st → pdfC3Inv (pdfLoop i st ls) := by
  induction ls with
  | nil => exact fun i st h => h
  | cons l ls ih =>
    intro i st h
    exact ih (fun x hx => hls x (List.mem_cons_of_mem l hx)) (i + 1) _
      (pdfStep_c3 i (hls l (List.mem_cons_self l ls)) h)

def txtC3Inv (st : TxtSt) : Prop := ∀ e ∈ st.entries, contentEdgesOk e.content = true

lemma txtFlush_c3 {st : TxtSt} (h : txtC3Inv st) :
    ∀ e ∈ txtFlush st, contentEdgesOk e.content = true := by
  intro e he
  rcases hc : st.current with _ | e0
  · simp only [txtFlush, hc] at he
    exact h e he
  · by_cases hz : jsTrim (joinNl st.contentLines) = []
    · simp only [txtFlush, hc, hz, if_true] at he
      exact h e he
    · simp only [txtFlush, hc, if_neg hz] at he
      rcases List.mem_append.mp he with he | he
      · exact h e he
      · rw [List.mem_singleton] at he
        subst he
        exact trimFixed_edges hz (jsTrim_idem _)

lemma txtStep_c3 {st : TxtSt} (l : Str) (h : txtC3Inv st) : txtC3Inv (txtStep st l) := by
  unfold txtStep
  cases hm : reFull DATE_LINE_RE l with
  | some caps => exact fun e he => txtFlush_c3 h e he
  | none =>
    cases st.current with
    | some e0 => exact h
    | none => exact h

lemma txtFold_c3 (ls : List Str) :
    ∀ st : TxtSt, txtC3Inv st → txtC3Inv (ls.foldl txtStep st) := by
  induction ls with
  | nil => exact fun st h => h
  | cons l ls ih => exact fun st h => ih _ (txtStep_c3 l h)

/-! ## Append-only behaviour of the PDF loop -/

lemma pdfFlush_shape (st : PdfSt) (n : Nat) :
    pdfFlush st n = st ∨
    ∃ e c, st.current = some e ∧
      pdfFlush st n = { st with
        entries := st.entries ++ [{ e with content := c }],
        ranges := st.ranges ++ [(st.currentStartLine, n)] } := by
  rcases hc : st.current with _ | e
  · left
    simp [pdfFlush, hc]
  · by_cases h : jsTrim (mergeContentLinesToParagraphs st.contentLines) = []
    · left
      simp [pdfFlush, hc, h]
    · right
      exact ⟨e, jsTrim (mergeContentLinesToParagraphs st.contentLines), rfl,
        by simp [pdfFlush, hc, h]⟩

lemma pdfFlush_append (st : PdfSt) (n : Nat) :
    ∃ t, (pdfFlush st n).entries = st.entries ++ t ∧
      (pdfFlush st n).errors = st.errors := by
  rcases pdfFlush_shape st n with h | ⟨e, c, hc, h⟩
  · exact ⟨[], by rw [h]; simp⟩
  · exact ⟨[{ e with content := c }], by rw [h]; simp⟩

lemma pdfStep_append (i : Nat) (st : PdfSt) (l : Str) :
    ∃ t u, (pdfStep i st l).entries = st.entries ++ t ∧
      (pdfStep i st l).errors = st.errors ++ u := by
  unfold pdfStep
  cases hd : pdfDetectDate (cleanRepeatedChars l) with
  | some caps =>
    obtain ⟨t, ht, he⟩ := pdfFlush_append st (i - 1)
    exact ⟨t, [], by unfold pdfDateBranch; rw [ht], by unfold pdfDateBranch; rw [he]; simp⟩
  | none =>
    unfold pdfNonDateBranch
    by_cases hem : st.expectingMetadata = true ∧ st.current.isSome = true
    · rw [if_pos hem]
      cases hm : reFull PDF_METADATA_RE (cleanRepeatedChars l) with
      | some mcaps => exact ⟨[], [], by simp, by simp⟩
      | none =>
        by_cases hz : jsTrim (cleanRepeatedChars l) = []
        · refine ⟨[], [], ?_, ?_⟩ <;>
            simp [pushContent, hz] <;> split <;> simp
        · refine ⟨[], [mkMetaError ((st.current.map (·.date)).getD [])
            (cleanRepeatedChars l)], ?_, ?_⟩ <;>
            simp [pushContent, hz] <;> split <;> simp
    · rw [if_neg hem]
      refine ⟨[], [], ?_, ?_⟩ <;> simp [pushContent] <;> split <;> simp

lemma pdfLoop_append (ls : List Str) :
    ∀ (i : Nat) (st : PdfSt), ∃ t u, (pdfLoop i st ls).entries = st.entries ++ t ∧
      (pdfLoop i st ls).errors = st.errors ++ u := by
  induction ls with
  | nil => exact fun i st => ⟨[], [], by simp [pdfLoop], by simp [pdfLoop]⟩
  | cons l ls ih =>
    intro i st
    obtain ⟨t1, u1, ht1, hu1⟩ := pdfStep_append i st l
    obtain ⟨t2, u2, ht2, hu2⟩ := ih (i + 1) (pdfStep i st l)
    exact ⟨t1 ++ t2, u1 ++ u2,
      by rw [pdfLoop, ht2, ht1, List.append_assoc],
      by rw [pdfLoop, hu2, hu1, List.append_assoc]⟩

/-! ## First-line tracking through the reflow -/

/-- The first line (in reading order) of the reflow state: the state is stored
in reverse, so it is the last line of the last paragraph. -/
def firstLine? (ps : MergeSt) : Option Str :=
  ((ps.2 :: ps.1).getLast?).bind (·.getLast?)

/-- The first body line survives as a prefix of the first stored line. -/
def firstLineP (b : Str) (ps : MergeSt) : Prop :=
  ∃ f, firstLine? ps = some f ∧ b <+: f

lemma firstLine?_def (ps : MergeSt) :
    firstLine? ps = ((ps.2 :: ps.1).getLast?).bind (fun p => p.getLast?) := rfl

lemma firstLine?_mk (D : List (List Str)) (C : List Str) :
    firstLine? (D, C) = ((C :: D).getLast?).bind (fun p => p.getLast?) := rfl

lemma glcons {α : Type} (a x : α) {l : List α} :
    (a :: x :: l).getLast? = (x :: l).getLast? :=
  getLast?_cons_of_ne a (by simp)

lemma mergeStep_firstLine {b : Str} {ps : MergeSt} {line : Str}
    (h : firstLineP b ps) : firstLineP b (mergeStep ps line) := by
  obtain ⟨f, hf, hbf⟩ := h
  by_cases ht : jsTrim line = []
  · rcases hcur : ps.2 with _ | ⟨ll, rest⟩
    · have hst : mergeStep ps line = ps := by simp [mergeStep, ht, hcur]
      rw [hst]
      exact ⟨f, hf, hbf⟩
    · by_cases hbr : ¬ isInfoLine ll ∧ sentenceEnd ll
      · have hst : mergeStep ps line = ((ll :: rest) :: ps.1, []) := by
          simp [mergeStep, ht, hcur, hbr.1, hbr.2]
        rw [hst]
        refine ⟨f, ?_, hbf⟩
        rw [← hf, firstLine?_mk, firstLine?_def, hcur]
        rw [glcons]
      · have hst : mergeStep ps line = ps := by
          rcases Decidable.not_and_iff_or_not.mp hbr with hh | hh <;>
            simp [mergeStep, ht, hcur, hh] <;> intro hq <;> simp [hh] at hq ⊢ <;> tauto
        rw [hst]
        exact ⟨f, hf, hbf⟩
  · by_cases hinf : isInfoLine line = true
    · rcases hcur : ps.2 with _ | ⟨ll, rest⟩
      · have hst : mergeStep ps line = ([jsTrim line] :: ps.1, []) := by
          simp [mergeStep, ht, hcur, hinf]
        rcases hdone : ps.1 with _ | ⟨p0, drest⟩
        · rw [firstLine?_def, hcur, hdone] at hf
          simp at hf
        · rw [hst]
          refine ⟨f, ?_, hbf⟩
          rw [← hf, firstLine?_mk, firstLine?_def, hcur, hdone]
          rw [glcons, glcons, glcons]
      · have hst : mergeStep ps line = ([jsTrim line] :: (ll :: rest) :: ps.1, []) := by
          simp [mergeStep, ht, hcur, hinf]
        rw [hst]
        refine ⟨f, ?_, hbf⟩
        rw [← hf, firstLine?_mk, firstLine?_def, hcur]
        rw [glcons, glcons]
    · rcases hcur : ps.2 with _ | ⟨ll, rest⟩
      · have hst : mergeStep ps line = (ps.1, [jsTrim line]) := by
          simp [mergeStep, ht, hcur, hinf]
        rcases hdone : ps.1 with _ | ⟨p0, drest⟩
        · rw [firstLine?_def, hcur, hdone] at hf
          simp at hf
        · rw [hst]
          refine ⟨f, ?_, hbf⟩
          rw [← hf, firstLine?_mk, firstLine?_def, hcur, hdone]
          rw [glcons, glcons]
      · by_cases hjoin : ¬ isInfoLine ll ∧ ¬ sentenceEnd ll
        · have hst : mergeStep ps line = (ps.1, (ll ++ jsTrim line) :: rest) := by
            simp [mergeStep, ht, hcur, hinf, hjoin.1, hjoin.2]
          rcases hdone : ps.1 with _ | ⟨p0, drest⟩
          · rcases hrest : rest with _ | ⟨r0, rrest⟩
            · rw [firstLine?_def, hcur, hdone, hrest] at hf
              simp only [List.getLast?_singleton, Option.some_bind] at hf
              simp only [List.getLast?_singleton, Option.some.injEq] at hf
              subst hf
              rw [hst, hdone, hrest]
              refine ⟨ll ++ jsTrim line, ?_, hbf.trans (List.prefix_append ll _)⟩
              rw [firstLine?_mk]
              simp
            · rw [hst]
              refine ⟨f, ?_, hbf⟩
              rw [← hf, firstLine?_mk, firstLine?_def, hcur, hdone, hrest]
              rw [List.getLast?_singleton, List.getLast?_singleton]
              simp only [Option.some_bind]
              rw [glcons, glcons]
          · rw [hst]
            refine ⟨f, ?_, hbf⟩
            rw [← hf, firstLine?_mk, firstLine?_def, hcur, hdone]
            rw [glcons, glcons]
        · have hst : mergeStep ps line = (ps.1, jsTrim line :: ll :: rest) := by
            rcases Decidable.not_and_iff_or_not.mp hjoin with hh | hh <;>
              simp [mergeStep, ht, hcur, hinf, hh] <;> intro hq <;>
              simp [hh] at hq ⊢ <;> tauto
          rcases hdone : ps.1 with _ | ⟨p0, drest⟩
          · rw [hst]
            refine ⟨f, ?_, hbf⟩
            rw [← hf, firstLine?_mk, firstLine?_def, hcur, hdone]
            rw [List.getLast?_singleton, List.getLast?_singleton]
            simp only [Option.some_bind]
            rw [glcons]
          · rw [hst]
            refine ⟨f, ?_, hbf⟩
            rw [← hf, firstLine?_mk, firstLine?_def, hcur, hdone]
            rw [glcons, glcons]

lemma mergeFold_firstLine {b : Str} (ls : List Str) {ps : MergeSt}
    (h : firstLineP b ps) : firstLineP b (ls.foldl mergeStep ps) := by
  induction ls generalizing ps with
  | nil => exact h
  | cons l ls ih => exact ih (mergeStep_firstLine h)

lemma mergeStep_init_first {b : Str} (hb : jsTrim b ≠ []) :
    firstLineP (jsTrim b) (mergeStep (([], []) : MergeSt) b) := by
  by_cases hinf : isInfoLine b = true
  · have hst : mergeStep (([], []) : MergeSt) b = ([[jsTrim b]], []) := by
      simp [mergeStep, hb, hinf]
    rw [hst]
    exact ⟨jsTrim b, by rw [firstLine?_mk]; simp, List.prefix_refl _⟩
  · have hst : mergeStep (([], []) : MergeSt) b = ([], [jsTrim b]) := by
      simp [mergeStep, hb, hinf]
    rw [hst]
    exact ⟨jsTrim b, by rw [firstLine?_mk]; simp, List.prefix_refl _⟩

lemma joinNl_head_append {L : List Str} {f : Str} (h : L.head? = some f) :
    ∃ u, joinNl L = f ++ u := by
  rcases L with _ | ⟨x, xs⟩
  · exact absurd h (by simp)
  · simp only [List.head?_cons, Option.some.injEq] at h
    subst h
    rcases xs with _ | ⟨y, ys⟩
    · exact ⟨[], by rw [joinNl_one]; simp⟩
    · exact ⟨'\n' :: joinNl (y :: ys), joinNl_cons₂ x y ys⟩

/-- The first stored line heads the reflow output. -/
lemma mergeOut_firstLine {ps : MergeSt} {f : Str} (hf : firstLine? ps = some f)
    (hfe : f ≠ []) : ∃ t, mergeOut ps = f ++ t := by
  rw [firstLine?_def] at hf
  rcases hlp : (ps.2 :: ps.1).getLast? with _ | lastP
  · rw [hlp] at hf
    exact absurd hf (by simp)
  · rw [hlp] at hf
    simp only [Option.some_bind] at hf
    have hrev : (ps.2 :: ps.1).reverse.head? = some lastP := by
      rw [List.head?_reverse]
      exact hlp
    rcases hrl : (ps.2 :: ps.1).reverse with _ | ⟨P0, Prest⟩
    · rw [hrl] at hrev
      exact absurd hrev (by simp)
    · rw [hrl] at hrev
      simp only [List.head?_cons, Option.some.injEq] at hrev
      rw [← hrev] at hf
      have hP0 : P0.reverse.head? = some f := by
        rw [List.head?_reverse]
        exact hf
      obtain ⟨u, hu⟩ := joinNl_head_append hP0
      have hkeep : (fun s => decide (0 < s.length)) (joinNl P0.reverse) = true := by
        simp only [decide_eq_true_eq]
        rw [hu]
        rcases hfc : f with _ | ⟨c, cs⟩
        · exact absurd hfc hfe
        · simp
      simp only [mergeOut]
      rw [hrl, List.map_cons, List.filter_cons, if_pos hkeep]
      rcases hflt : (List.map (fun p => joinNl p.reverse) Prest).filter
          (fun s => 0 < s.length) with _ | ⟨q0, qrest⟩
      · refine ⟨u, ?_⟩
        rw [hflt, intercalate_one, hu]
      · refine ⟨u ++ '\n' :: '\n' :: List.intercalate ['\n', '\n'] (q0 :: qrest), ?_⟩
        rw [hflt, intercalate_cons₂, hu]
        simp

/-- A reflow state that is wellformed and whose first line extends the
nonempty seed `bt` produces a trim-fixed, nonempty output starting with
`bt`. -/
lemma firstGood_out {bt : Str} (hbt : bt ≠ []) {ps : MergeSt}
    (h1 : firstLineP bt ps) (h2 : goodSt ps) :
    jsTrim (mergeOut ps) ≠ [] ∧ ∃ t, jsTrim (mergeOut ps) = bt ++ t := by
  obtain ⟨f, hf, hbf⟩ := h1
  have hfne : f ≠ [] := by
    intro h
    subst h
    rw [List.prefix_nil] at hbf
    exact hbt hbf
  obtain ⟨t, ht⟩ := mergeOut_firstLine hf hfne
  have hne : mergeOut ps ≠ [] := by
    rw [ht]
    rcases f with _ | ⟨c, cs⟩
    · exact absurd rfl hfne
    · simp
  rcases mergeOut_ok ps h2 with h | ⟨hj, _, _⟩
  · exact absurd h hne
  · constructor
    · rw [hj]
      exact hne
    · obtain ⟨w, hw⟩ := hbf
      exact ⟨w ++ t, by rw [hj, ht, ← hw, List.append_assoc]⟩

/-- Reflowing a single frozen one-line paragraph yields exactly that line. -/
lemma mergeOut_single (x : Str) (hx : x ≠ []) : mergeOut ([[x]], []) = x := by
  simp [mergeOut, joinNl_one, joinNl, List.intercalate, List.length_pos, hx]

/-- If the loop state carries an in-progress entry whose accumulated content
satisfies a step-closed property `R`, then whichever flush eventually emits
that entry (the next date header inside `ls`, or the closing flush), the
entry appears at the next index of `entries` and its content is the trimmed
reflow of some state satisfying `R`. -/
lemma pdf_first_flush (ls : List Str) :
    ∀ (i : Nat) (st : PdfSt) (e0 : DiaryEntry) (R : MergeSt → Prop),
    (∀ (ps : MergeSt) (l : Str), '\n' ∉ l → R ps → R (mergeStep ps l)) →
    (∀ ps : MergeSt, R ps → jsTrim (mergeOut ps) ≠ []) →
    (∀ l ∈ ls, '\n' ∉ l) →
    st.current = some e0 →
    st.expectingMetadata = false →
    st.contentLines ≠ [] →
    R (st.contentLines.foldl mergeStep ([], [])) →
    ∀ n, ∃ ps, R ps ∧
      (pdfFlush (pdfLoop i st ls) n).entries[st.entries.length]? =
        some { e0 with content := jsTrim (mergeOut ps) } := by
  induction ls with
  | nil =>
    intro i st e0 R hRstep hRout hnl hcur hexp hcls hR n
    refine ⟨st.contentLines.foldl mergeStep ([], []), hR, ?_⟩
    rw [pdfLoop]
    have hc : jsTrim (mergeContentLinesToParagraphs st.contentLines) =
        jsTrim (mergeOut (st.contentLines.foldl mergeStep ([], []))) := by
      rw [mergeContentLinesToParagraphs,
        if_neg (by simpa [List.isEmpty_iff] using hcls)]
    have hcne : jsTrim (mergeContentLinesToParagraphs st.contentLines) ≠ [] := by
      rw [hc]
      exact hRout _ hR
    have hfl : pdfFlush st n = { st with
        entries := st.entries ++
          [{ e0 with content := jsTrim (mergeContentLinesToParagraphs st.contentLines) }],
        ranges := st.ranges ++ [(st.currentStartLine, n)] } := by
      simp [pdfFlush, hcur, hcne]
    rw [hc] at hfl
    rw [hfl]
    exact List.getElem?_concat_length _ _
  | cons l ls ih =>
    intro i st e0 R hRstep hRout hnl hcur hexp hcls hR n
    rw [pdfLoop]
    cases hd : pdfDetectDate (cleanRepeatedChars l) with
    | some caps =>
      have hstep : pdfStep i st l = pdfDateBranch i st caps := by
        unfold pdfStep
        rw [hd]
      rw [hstep]
      have hc : jsTrim (mergeContentLinesToParagraphs st.contentLines) =
          jsTrim (mergeOut (st.contentLines.foldl mergeStep ([], []))) := by
        rw [mergeContentLinesToParagraphs,
          if_neg (by simpa [List.isEmpty_iff] using hcls)]
      have hcne : jsTrim (mergeContentLinesToParagraphs st.contentLines) ≠ [] := by
        rw [hc]
        exact hRout _ hR
      have hfl : pdfFlush st (i - 1) = { st with
          entries := st.entries ++
            [{ e0 with content := jsTrim (mergeContentLinesToParagraphs st.contentLines) }],
          ranges := st.ranges ++ [(st.currentStartLine, i - 1)] } := by
        simp [pdfFlush, hcur, hcne]
      rw [hc] at hfl
      refine ⟨st.contentLines.foldl mergeStep ([], []), hR, ?_⟩
      have hdb : (pdfDateBranch i st caps).entries = st.entries ++
          [{ e0 with content := jsTrim (mergeOut (st.contentLines.foldl mergeStep ([], []))) }] := by
        show (pdfFlush st (i - 1)).entries = _
        rw [hfl]
      obtain ⟨t, u, ht, hu⟩ := pdfLoop_append ls (i + 1) (pdfDateBranch i st caps)
      obtain ⟨t2, ht2, he2⟩ := pdfFlush_append (pdfLoop (i + 1) (pdfDateBranch i st caps) ls) n
      rw [ht2, ht, hdb, List.append_assoc, List.append_assoc]
      rw [List.getElem?_append_right (le_refl _)]
      simp
    | none =>
      have hstep : pdfStep i st l = pdfNonDateBranch st (cleanRepeatedChars l) := by
        unfold pdfStep
        rw [hd]
      have hem : ¬ (st.expectingMetadata = true ∧ st.current.isSome = true) := by
        rw [hexp]
        simp
      have hcond : st.current.isSome = true ∧ ¬ st.expectingMetadata = true := by
        constructor
        · rw [hcur]
          rfl
        · rw [hexp]
          simp
      have hndb : pdfNonDateBranch st (cleanRepeatedChars l) =
          { st with contentLines := st.contentLines ++ [cleanRepeatedChars l] } := by
        unfold pdfNonDateBranch pushContent
        rw [if_neg hem, if_pos hcond]
      rw [hstep, hndb]
      have hnll : '\n' ∉ l := hnl l (List.mem_cons_self l ls)
      obtain ⟨ps, hps, hget⟩ := ih (i + 1)
        { st with contentLines := st.contentLines ++ [cleanRepeatedChars l] } e0 R
        hRstep hRout (fun x hx => hnl x (List.mem_cons_of_mem l hx))
        hcur hexp (by simp)
        (by
          show R ((st.contentLines ++ [cleanRepeatedChars l]).foldl mergeStep ([], []))
          rw [List.foldl_append]
          exact hRstep _ _ (nl_not_in_clean hnll) hR) n
      exact ⟨ps, hps, hget⟩

lemma pdfLoop_append_list (xs : List Str) : ∀ (ys : List Str) (i : Nat) (st : PdfSt),
    pdfLoop i st (xs ++ ys) = pdfLoop (i + xs.length) (pdfLoop i st xs) ys := by
  induction xs with
  | nil =>
    intro ys i st
    simp [pdfLoop]
  | cons x xs ih =>
    intro ys i st
    rw [List.cons_append]
    show pdfLoop (i + 1) (pdfStep i st x) (xs ++ ys) = _
    rw [ih ys (i + 1) (pdfStep i st x)]
    have hn : i + 1 + xs.length = i + (x :: xs).length := by
      simp [List.length_cons]
      omega
    rw [hn]
    rfl

/-- The missing-metadata step (parser.ts lines 694-706): a non-date,
non-metadata, non-blank line while a metadata line is awaited records one
diagnostic, clears the expectation, and accumulates the repaired line as
body content. -/
lemma pdfStep_meta_miss (i : Nat) (st : PdfSt) (l : Str) (e0 : DiaryEntry)
    (hcur : st.current = some e0) (hexp : st.expectingMetadata = true)
    (hdet : pdfDetectDate (cleanRepeatedChars l) = none)
    (hm : reFull PDF_METADATA_RE (cleanRepeatedChars l) = none)
    (hz : jsTrim (cleanRepeatedChars l) ≠ []) :
    pdfStep i st l = { st with
      errors := st.errors ++ [mkMetaError e0.date (cleanRepeatedChars l)],
      contentLines := st.contentLines ++ [cleanRepeatedChars l],
      expectingMetadata := false } := by
  unfold pdfStep
  rw [hdet]
  show pdfNonDateBranch st (cleanRepeatedChars l) = _
  unfold pdfNonDateBranch pushContent
  rw [hm]
  simp [hcur, hexp, hz]

/-- Running the loop over a date header immediately followed by a
non-date, non-metadata, non-blank line, from an arbitrary state: exactly one
diagnostic is appended right after the errors already accrued, and the new
entry survives to the final result with its date, empty weekday, and the
repaired trimmed line as content prefix. -/
lemma pdf_meta_miss_run (st0 : PdfSt) (i : Nat) (d b : Str) (rest : List Str)
    (caps : Caps) (n : Nat)
    (hd : pdfDetectDate (cleanRepeatedChars d) = some caps)
    (hb1 : pdfDetectDate (cleanRepeatedChars b) = none)
    (hb2 : reFull PDF_METADATA_RE (cleanRepeatedChars b) = none)
    (hb3 : jsTrim (cleanRepeatedChars b) ≠ [])
    (hnlb : '\n' ∉ b) (hnlr : ∀ l ∈ rest, '\n' ∉ l) :
    (∃ u, (pdfFlush (pdfLoop i st0 (d :: b :: rest)) n).errors =
        st0.errors ++ mkMetaError (dateOfCaps caps) (cleanRepeatedChars b) :: u) ∧
    ∃ e, e ∈ (pdfFlush (pdfLoop i st0 (d :: b :: rest)) n).entries ∧
      e.date = dateOfCaps caps ∧ e.weekday = [] ∧
      ∃ t, e.content = jsTrim (cleanRepeatedChars b) ++ t := by
  have h1 : pdfStep i st0 d = { pdfFlush st0 (i - 1) with
      current := some { date := dateOfCaps caps, weekday := [] },
      currentStartLine := i, contentLines := [], expectingMetadata := true } := by
    unfold pdfStep
    rw [hd]
    rfl
  have h2 := pdfStep_meta_miss (i + 1)
    ({ pdfFlush st0 (i - 1) with
       current := some { date := dateOfCaps caps, weekday := [] },
       currentStartLine := i, contentLines := [], expectingMetadata := true } : PdfSt)
    b { date := dateOfCaps caps, weekday := [] } rfl rfl hb1 hb2 hb3
  have hshow : pdfLoop i st0 (d :: b :: rest) =
      pdfLoop (i + 2) (pdfStep (i + 1) (pdfStep i st0 d) b) rest := rfl
  obtain ⟨tF, htF, heF⟩ := pdfFlush_append st0 (i - 1)
  have hcur2 : (pdfStep (i + 1) (pdfStep i st0 d) b).current =
      some { date := dateOfCaps caps, weekday := [] } := by
    rw [h1, h2]
  have hexp2 : (pdfStep (i + 1) (pdfStep i st0 d) b).expectingMetadata = false := by
    rw [h1, h2]
  have hcls2 : (pdfStep (i + 1) (pdfStep i st0 d) b).contentLines =
      [cleanRepeatedChars b] := by
    rw [h1, h2]
    rfl
  have herr2 : (pdfStep (i + 1) (pdfStep i st0 d) b).errors =
      st0.errors ++ [mkMetaError (dateOfCaps caps) (cleanRepeatedChars b)] := by
    rw [h1, h2]
    show (pdfFlush st0 (i - 1)).errors ++ [mkMetaError (dateOfCaps caps) (cleanRepeatedChars b)] = _
    rw [heF]
  constructor
  · obtain ⟨tL, uL, htL, huL⟩ := pdfLoop_append rest (i + 2) (pdfStep (i + 1) (pdfStep i st0 d) b)
    obtain ⟨tE, htE, heE⟩ :=
      pdfFlush_append (pdfLoop (i + 2) (pdfStep (i + 1) (pdfStep i st0 d) b) rest) n
    refine ⟨uL, ?_⟩
    rw [hshow, heE, huL, herr2, List.append_assoc]
    rfl
  · obtain ⟨ps, hps, hget⟩ := pdf_first_flush rest (i + 2)
      (pdfStep (i + 1) (pdfStep i st0 d) b)
      { date := dateOfCaps caps, weekday := [] }
      (fun q => firstLineP (jsTrim (cleanRepeatedChars b)) q ∧ goodSt q)
      (fun q l hl hq => ⟨mergeStep_firstLine hq.1, mergeStep_good hq.2 hl⟩)
      (fun q hq => (firstGood_out hb3 hq.1 hq.2).1)
      hnlr hcur2 hexp2 (by rw [hcls2]; simp)
      (by
        rw [hcls2]
        exact ⟨mergeStep_init_first hb3,
          mergeStep_good ⟨by simp, by simp⟩ (nl_not_in_clean hnlb)⟩) n
    refine ⟨{ date := dateOfCaps caps, weekday := [],
              content := jsTrim (mergeOut ps) }, ?_, rfl, rfl, ?_⟩
    · rw [hshow]
      exact List.getElem?_mem hget
    · exact (firstGood_out hb3 hps.1 hps.2).2

/-! ## The date-scan automaton: idempotence machinery for cleanRepeatedChars -/

lemma takeWhile_digs {y : Str} (hy : ∀ c ∈ y, isDig c = true) {c : Char}
    (hc : isDig c = false) (r : Str) : (y ++ c :: r).takeWhile isDig = y := by
  induction y with
  | nil => simp [List.takeWhile_cons, hc]
  | cons a y ih =>
    rw [List.cons_append, List.takeWhile_cons, if_pos (hy a (List.mem_cons_self a y))]
    rw [ih (fun x hx => hy x (List.mem_cons_of_mem a hx))]

lemma dropWhile_digs {y : Str} (hy : ∀ c ∈ y, isDig c = true) {c : Char}
    (hc : isDig c = false) (r : Str) : (y ++ c :: r).dropWhile isDig = c :: r := by
  induction y with
  | nil => simp [List.dropWhile_cons, hc]
  | cons a y ih =>
    rw [List.cons_append, List.dropWhile_cons, if_pos (hy a (List.mem_cons_self a y))]
    exact ih (fun x hx => hy x (List.mem_cons_of_mem a hx))

lemma dropWhile_head_false {p : Char → Bool} {l r : Str} {c : Char}
    (h : l.dropWhile p = c :: r) : p c = false := by
  induction l with
  | nil => simp [List.dropWhile] at h
  | cons a l ih =>
    rw [List.dropWhile_cons] at h
    by_cases hp : p a = true
    · rw [if_pos hp] at h
      exact ih h
    · rw [if_neg hp] at h
      simp only [List.cons.injEq] at h
      rw [← h.1]
      simpa using hp

lemma yue_not_dig {c : Char} (hc : yueCls c = true) : isDig c = false := by
  rcases (by simpa [yueCls] using hc : c = '月' ∨ c = '⽉') with h | h <;> subst h <;> decide

lemma ri_not_dig {c : Char} (hc : riCls c = true) : isDig c = false := by
  rcases (by simpa [riCls] using hc : c = '日' ∨ c = '⽇') with h | h <;> subst h <;> decide

/-- The span-based matcher succeeds at the start of a well-shaped date token,
returning exactly its three digit groups. -/
lemma matchDateAt_token {y m d : Str} {cm cd : Char}
    (hy : y ≠ []) (hyd : ∀ c ∈ y, isDig c = true)
    (hm : m ≠ []) (hmd : ∀ c ∈ m, isDig c = true)
    (hd : d ≠ []) (hdd : ∀ c ∈ d, isDig c = true)
    (hcm : yueCls cm = true) (hcd : riCls cd = true) (s : Str) :
    matchDateAt (y ++ '年' :: (m ++ cm :: (d ++ cd :: s))) = some (y, m, d, s) := by
  have hnian : isDig '年' = false := by decide
  have hcmd : isDig cm = false := yue_not_dig hcm
  have hcdd : isDig cd = false := ri_not_dig hcd
  unfold matchDateAt
  rw [List.span_eq_take_drop]
  simp only
  rw [takeWhile_digs hyd hnian, dropWhile_digs hyd hnian]
  rw [if_neg (by simpa [List.isEmpty_iff] using hy)]
  dsimp only
  rw [if_pos rfl]
  rw [List.span_eq_take_drop]
  simp only
  rw [takeWhile_digs hmd hcmd, dropWhile_digs hmd hcmd]
  rw [if_neg (by simpa [List.isEmpty_iff] using hm)]
  dsimp only
  rw [if_pos hcm]
  rw [List.span_eq_take_drop]
  simp only
  rw [takeWhile_digs hdd hcdd, dropWhile_digs hdd hcdd]
  rw [if_neg (by simpa [List.isEmpty_iff] using hd)]
  dsimp only
  rw [if_pos hcd]

/-- States of the anchored scanner for `(\d+)年(\d+)[月⽉](\d+)[日⽇]`: the
even states expect the first digit of a group, the odd states are inside a
group, `acc` and `dead` are absorbing. -/
inductive DSt where
  | s0 | s1 | s2 | s3 | s4 | s5 | acc | dead
deriving DecidableEq, Repr

def dstep (σ : DSt) (c : Char) : DSt :=
  match σ with
  | .s0 => if isDig c then .s1 else .dead
  | .s1 => if isDig c then .s1 else if c = '年' then .s2 else .dead
  | .s2 => if isDig c then .s3 else .dead
  | .s3 => if isDig c then .s3 else if yueCls c then .s4 else .dead
  | .s4 => if isDig c then .s5 else .dead
  | .s5 => if isDig c then .s5 else if riCls c then .acc else .dead
  | .acc => .acc
  | .dead => .dead

def digJump : DSt → DSt
  | .s0 => .s1
  | .s1 => .s1
  | .s2 => .s3
  | .s3 => .s3
  | .s4 => .s5
  | .s5 => .s5
  | .acc => .acc
  | .dead => .dead

def nianJump : DSt → DSt
  | .s1 => .s2
  | .acc => .acc
  | _ => .dead

def yueJump : DSt → DSt
  | .s3 => .s4
  | .acc => .acc
  | _ => .dead

def riJump : DSt → DSt
  | .s5 => .acc
  | .acc => .acc
  | _ => .dead

lemma dstep_dig {c : Char} (hc : isDig c = true) (σ : DSt) : dstep σ c = digJump σ := by
  cases σ <;> simp [dstep, digJump, hc]

lemma dstep_nian (σ : DSt) : dstep σ '年' = nianJump σ := by
  cases σ <;> rfl

lemma dstep_yue {c : Char} (hc : yueCls c = true) (σ : DSt) : dstep σ c = yueJump σ := by
  rcases (by simpa [yueCls] using hc : c = '月' ∨ c = '⽉') with h | h <;> subst h <;>
    cases σ <;> rfl

lemma dstep_ri {c : Char} (hc : riCls c = true) (σ : DSt) : dstep σ c = riJump σ := by
  rcases (by simpa [riCls] using hc : c = '日' ∨ c = '⽇') with h | h <;> subst h <;>
    cases σ <;> rfl

lemma digJump_idem (σ : DSt) : digJump (digJump σ) = digJump σ := by
  cases σ <;> rfl

lemma foldl_acc (l : Str) : List.foldl dstep .acc l = .acc := by
  induction l with
  | nil => rfl
  | cons c l ih => rw [List.foldl_cons]; exact ih

lemma foldl_dead (l : Str) : List.foldl dstep .dead l = .dead := by
  induction l with
  | nil => rfl
  | cons c l ih => rw [List.foldl_cons]; exact ih

lemma foldl_digrun {y : Str} (hne : y ≠ []) (hyd : ∀ c ∈ y, isDig c = true) (σ : DSt) :
    List.foldl dstep σ y = digJump σ := by
  induction y generalizing σ with
  | nil => exact absurd rfl hne
  | cons c y ih =>
    rw [List.foldl_cons, dstep_dig (hyd c (List.mem_cons_self c y)) σ]
    rcases hyy : y with _ | ⟨c2, y2⟩
    · rfl
    · rw [← hyy, ih (by rw [hyy]; simp)
        (fun x hx => hyd x (List.mem_cons_of_mem c hx)) (digJump σ), digJump_idem]

/-- One well-shaped date token drives the scanner through the same composite
state map, independently of the digit-run lengths and the marker variants. -/
lemma foldl_token {y m d : Str} {cm cd : Char}
    (hy : y ≠ []) (hyd : ∀ c ∈ y, isDig c = true)
    (hm : m ≠ []) (hmd : ∀ c ∈ m, isDig c = true)
    (hd : d ≠ []) (hdd : ∀ c ∈ d, isDig c = true)
    (hcm : yueCls cm = true) (hcd : riCls cd = true) (σ : DSt) (s : Str) :
    List.foldl dstep σ (y ++ '年' :: (m ++ cm :: (d ++ cd :: s))) =
      List.foldl dstep (riJump (digJump (yueJump (digJump (nianJump (digJump σ)))))) s := by
  rw [List.foldl_append, foldl_digrun hy hyd σ, List.foldl_cons, dstep_nian,
    List.foldl_append, foldl_digrun hm hmd _, List.foldl_cons, dstep_yue hcm,
    List.foldl_append, foldl_digrun hd hdd _, List.foldl_cons, dstep_ri hcd]

lemma mda_some_foldl {cs : Str} (h : (matchDateAt cs).isSome = true) :
    List.foldl dstep .s0 cs = .acc := by
  obtain ⟨⟨y, m, d, rest⟩, hsome⟩ := Option.isSome_iff_exists.mp h
  obtain ⟨mk, dk, hmk, hdk, heq, hy, hyd, hm, hmd, hd, hdd⟩ := matchDateAt_sound hsome
  rw [heq, foldl_token hy hyd hm hmd hd hdd hmk hdk]
  exact foldl_acc rest

/-- Converse direction: if the span-based matcher fails at the start of the
string, the scanner never reaches `acc`. -/
lemma mda_none_foldl {cs : Str} (h : matchDateAt cs = none) :
    List.foldl dstep .s0 cs ≠ .acc := by
  have hcseq : cs = cs.takeWhile isDig ++ cs.dropWhile isDig :=
    (List.takeWhile_append_dropWhile isDig cs).symm
  unfold matchDateAt at h
  rw [List.span_eq_take_drop] at h
  simp only at h
  by_cases h1 : (cs.takeWhile isDig).isEmpty
  · have hA : cs.takeWhile isDig = [] := by simpa [List.isEmpty_iff] using h1
    rcases hB : cs.dropWhile isDig with _ | ⟨c0, r2⟩
    · have hcs : cs = [] := by
        rw [hcseq, hA, hB]
        rfl
      rw [hcs]
      decide
    · have hc0 : isDig c0 = false := dropWhile_head_false hB
      rw [hcseq, hA, hB, List.nil_append, List.foldl_cons]
      rw [show dstep DSt.s0 c0 = DSt.dead from by simp [dstep, hc0], foldl_dead]
      decide
  · rw [if_neg h1] at h
    have hAne : cs.takeWhile isDig ≠ [] := by simpa [List.isEmpty_iff] using h1
    have hAd : ∀ c ∈ cs.takeWhile isDig, isDig c = true :=
      fun c hc => List.mem_takeWhile_imp hc
    rcases hB : cs.dropWhile isDig with _ | ⟨c0, r2⟩
    · rw [hcseq, hB, List.append_nil, foldl_digrun hAne hAd]
      decide
    · have hc0 : isDig c0 = false := dropWhile_head_false hB
      rw [hB] at h
      dsimp only at h
      by_cases hc1 : c0 = '年'
      · rw [if_pos hc1] at h
        subst hc1
        rw [hcseq, hB, List.foldl_append, foldl_digrun hAne hAd, List.foldl_cons, dstep_nian]
        rw [List.span_eq_take_drop] at h
        simp only at h
        have hr2eq : r2 = r2.takeWhile isDig ++ r2.dropWhile isDig :=
          (List.takeWhile_append_dropWhile isDig r2).symm
        by_cases h2 : (r2.takeWhile isDig).isEmpty
        · have hA2 : r2.takeWhile isDig = [] := by simpa [List.isEmpty_iff] using h2
          rcases hB2 : r2.dropWhile isDig with _ | ⟨c2, r4⟩
          · have hr2 : r2 = [] := by
              rw [hr2eq, hA2, hB2]
              rfl
            rw [hr2]
            decide
          · have hc2 : isDig c2 = false := dropWhile_head_false hB2
            rw [hr2eq, hA2, hB2, List.nil_append, List.foldl_cons]
            rw [show dstep (nianJump (digJump DSt.s0)) c2 = DSt.dead from by
              show dstep DSt.s2 c2 = DSt.dead
              simp [dstep, hc2], foldl_dead]
            decide
        · rw [if_neg h2] at h
          have hA2ne : r2.takeWhile isDig ≠ [] := by simpa [List.isEmpty_iff] using h2
          have hA2d : ∀ c ∈ r2.takeWhile isDig, isDig c = true :=
            fun c hc => List.mem_takeWhile_imp hc
          rcases hB2 : r2.dropWhile isDig with _ | ⟨c2, r4⟩
          · rw [hr2eq, hB2, List.append_nil, foldl_digrun hA2ne hA2d]
            decide
          · have hc2 : isDig c2 = false := dropWhile_head_false hB2
            rw [hB2] at h
            dsimp only at h
            by_cases hy2 : yueCls c2 = true
            · rw [if_pos hy2] at h
              rw [hr2eq, hB2, List.foldl_append, foldl_digrun hA2ne hA2d, List.foldl_cons,
                dstep_yue hy2]
              rw [List.span_eq_take_drop] at h
              simp only at h
              have hr4eq : r4 = r4.takeWhile isDig ++ r4.dropWhile isDig :=
                (List.takeWhile_append_dropWhile isDig r4).symm
              by_cases h3 : (r4.takeWhile isDig).isEmpty
              · have hA3 : r4.takeWhile isDig = [] := by simpa [List.isEmpty_iff] using h3
                rcases hB3 : r4.dropWhile isDig with _ | ⟨c3, r6⟩
                · have hr4 : r4 = [] := by
                    rw [hr4eq, hA3, hB3]
                    rfl
                  rw [hr4]
                  decide
                · have hc3 : isDig c3 = false := dropWhile_head_false hB3
                  rw [hr4eq, hA3, hB3, List.nil_append, List.foldl_cons]
                  rw [show dstep (yueJump (digJump (nianJump (digJump DSt.s0)))) c3 =
                      DSt.dead from by
                    show dstep DSt.s4 c3 = DSt.dead
                    simp [dstep, hc3], foldl_dead]
                  decide
              · rw [if_neg h3] at h
                have hA3ne : r4.takeWhile isDig ≠ [] := by simpa [List.isEmpty_iff] using h3
                have hA3d : ∀ c ∈ r4.takeWhile isDig, isDig c = true :=
                  fun c hc => List.mem_takeWhile_imp hc
                rcases hB3 : r4.dropWhile isDig with _ | ⟨c3, r6⟩
                · rw [hr4eq, hB3, List.append_nil, foldl_digrun hA3ne hA3d]
                  decide
                · have hc3 : isDig c3 = false := dropWhile_head_false hB3
                  rw [hB3] at h
                  dsimp only at h
                  by_cases hr3 : riCls c3 = true
                  · rw [if_pos hr3] at h
                    exact absurd h (by simp)
                  · rw [hr4eq, hB3, List.foldl_append, foldl_digrun hA3ne hA3d, List.foldl_cons]
                    rw [show dstep (digJump (yueJump (digJump (nianJump (digJump DSt.s0))))) c3 =
                        DSt.dead from by
                      show dstep DSt.s5 c3 = DSt.dead
                      simp [dstep, hc3, hr3], foldl_dead]
                    decide
            · rw [hr2eq, hB2, List.foldl_append, foldl_digrun hA2ne hA2d, List.foldl_cons]
              rw [show dstep (digJump (nianJump (digJump DSt.s0))) c2 = DSt.dead from by
                show dstep DSt.s3 c2 = DSt.dead
                simp [dstep, hc2, hy2], foldl_dead]
              decide
      · rw [hcseq, hB, List.foldl_append, foldl_digrun hAne hAd, List.foldl_cons]
        rw [show dstep (digJump DSt.s0) c0 = DSt.dead from by
          show dstep DSt.s1 c0 = DSt.dead
          simp [dstep, hc0, hc1], foldl_dead]
        decide

/-- Replacing one well-shaped date token by another (same position, same
trailing suffix) cannot create a match of the span-based matcher. -/
lemma matchDateAt_isSome_congr {u s : Str} {y m d Y M D : Str} {cm cd cm' cd' : Char}
    (hy : y ≠ []) (hyd : ∀ c ∈ y, isDig c = true)
    (hm : m ≠ []) (hmd : ∀ c ∈ m, isDig c = true)
    (hd : d ≠ []) (hdd : ∀ c ∈ d, isDig c = true)
    (hY : Y ≠ []) (hYd : ∀ c ∈ Y, isDig c = true)
    (hM : M ≠ []) (hMd : ∀ c ∈ M, isDig c = true)
    (hD : D ≠ []) (hDd : ∀ c ∈ D, isDig c = true)
    (hcm : yueCls cm = true) (hcd : riCls cd = true)
    (hcm' : yueCls cm' = true) (hcd' : riCls cd' = true)
    (hnone : matchDateAt (u ++ (y ++ '年' :: (m ++ cm :: (d ++ cd :: s)))) = none) :
    matchDateAt (u ++ (Y ++ '年' :: (M ++ cm' :: (D ++ cd' :: s)))) = none := by
  by_contra hne
  have hacc := mda_some_foldl (Option.ne_none_iff_isSome.mp hne)
  have hnacc := mda_none_foldl hnone
  apply hnacc
  rw [List.foldl_append] at hacc ⊢
  rw [foldl_token hy hyd hm hmd hd hdd hcm hcd]
  rw [foldl_token hY hYd hM hMd hD hDd hcm' hcd'] at hacc
  exact hacc

/-- `findDateMatch` returns the leftmost match: the matcher fails at every
position strictly inside the returned prefix. -/
lemma findDateMatch_min {s pre y m d suf : Str}
    (h : findDateMatch s = some (pre, y, m, d, suf)) :
    ∀ j, j < pre.length → matchDateAt (List.drop j s) = none := by
  induction s generalizing pre with
  | nil => exact absurd h (by simp [findDateMatch])
  | cons c rest ih =>
    rw [findDateMatch] at h
    rcases hm : matchDateAt (c :: rest) with _ | ⟨⟨y1, m1, d1, sf1⟩⟩
    · rw [hm] at h
      rcases hf : findDateMatch rest with _ | ⟨⟨pre', y2, m2, d2, suf2⟩⟩
      · rw [hf] at h
        exact absurd h (by simp)
      · rw [hf] at h
        simp only [Option.some.injEq, Prod.mk.injEq] at h
        obtain ⟨hpre, hy, hm2, hd2, hsuf⟩ := h
        intro j hj
        rcases j with _ | j'
        · simpa using hm
        · rw [List.drop_succ_cons]
          refine ih (show findDateMatch rest = some (pre', y, m, d, suf) from by
            rw [hf, hy, hm2, hd2, hsuf]) j' ?_
          rw [← hpre] at hj
          simpa using hj
    · rw [hm] at h
      simp only [Option.some.injEq, Prod.mk.injEq] at h
      obtain ⟨hpre, _, _, _, _⟩ := h
      intro j hj
      rw [← hpre] at hj
      simp at hj

/-- Conversely, a position-wise failure certificate together with a match at
the end of the prefix determines the value of `findDateMatch`. -/
lemma findDateMatch_build {p X y m d sf : Str}
    (hnone : ∀ j, j < p.length → matchDateAt (List.drop j (p ++ X)) = none)
    (hX : matchDateAt X = some (y, m, d, sf)) :
    findDateMatch (p ++ X) = some (p, y, m, d, sf) := by
  induction p with
  | nil =>
    rcases hXc : X with _ | ⟨c, r⟩
    · rw [hXc] at hX
      exact absurd hX (by simp [matchDateAt])
    · subst hXc
      rw [List.nil_append, findDateMatch.eq_def]
      dsimp only
      rw [hX]
  | cons a p ih =>
    have h0 := hnone 0 (by simp)
    rw [List.drop_zero] at h0
    rw [List.cons_append, findDateMatch]
    rw [show matchDateAt (a :: (p ++ X)) = none from by rw [← List.cons_append]; exact h0]
    rw [ih (fun j hj => by
      have hj1 := hnone (j + 1) (by simpa using Nat.succ_lt_succ hj)
      rw [List.cons_append, List.drop_succ_cons] at hj1
      exact hj1)]

lemma cleanPart_short {w : Nat} {p : Str} (h : p.length ≤ w) : cleanPart w p = p := by
  unfold cleanPart
  rw [if_neg (by omega)]

lemma cleanPart_nonempty {w : Nat} (hw : 0 < w) {p : Str} (hp : p ≠ []) :
    cleanPart w p ≠ [] := by
  unfold cleanPart
  split
  · split <;>
      (intro hq
       rcases List.take_eq_nil_iff.mp hq with h0 | h0
       · omega
       · exact hp h0)
  · exact hp

lemma cleanPart_length {w : Nat} {p : Str} : (cleanPart w p).length ≤ w := by
  unfold cleanPart
  split
  next h => split <;> (rw [List.length_take]; exact min_le_left _ _)
  next h => omega

lemma cleanPart_digs {w : Nat} {p : Str} (hp : ∀ c ∈ p, isDig c = true) :
    ∀ c ∈ cleanPart w p, isDig c = true :=
  fun c hc => hp c (cleanPart_subset hc)

/-- The value of `cleanRepeatedChars` once the leftmost match is known. -/
lemma clean_result {s pre y m d suf : Str}
    (hfd : findDateMatch s = some (pre, y, m, d, suf))
    (hmk : ¬ ¬ (s.any isDateMarker = true)) :
    cleanRepeatedChars s =
      (if strictDateCheck (jsTrim (pre ++ (cleanPart 4 y ++ '年' ::
            (cleanPart 2 m ++ '月' :: (cleanPart 2 d ++ ['日']))) ++ suf))
       then jsTrim (pre ++ (cleanPart 4 y ++ '年' ::
            (cleanPart 2 m ++ '月' :: (cleanPart 2 d ++ ['日']))) ++ suf)
       else pre ++ (cleanPart 4 y ++ '年' ::
            (cleanPart 2 m ++ '月' :: (cleanPart 2 d ++ ['日']))) ++ suf) := by
  unfold cleanRepeatedChars
  rw [if_neg hmk, hfd]

/-- Inversion of the strict post-substitution test. -/
lemma strict_shape {t : Str} (h : strictDateCheck t = true) :
    ∃ a b c d e f g k rest,
      t = a :: b :: c :: d :: '年' :: e :: f :: '月' :: g :: k :: '日' :: rest ∧
      isDig a = true ∧ isDig b = true ∧ isDig c = true ∧ isDig d = true ∧
      isDig e = true ∧ isDig f = true ∧ isDig g = true ∧ isDig k = true ∧
      rest.all jsWs = true := by
  unfold strictDateCheck at h
  split at h
  · rename_i a b c d e f g k rest
    simp only [Bool.and_eq_true] at h
    obtain ⟨⟨⟨⟨⟨⟨⟨⟨ha, hb⟩, hc⟩, hd⟩, he⟩, hf⟩, hg⟩, hk⟩, hrest⟩ := h
    exact ⟨a, b, c, d, e, f, g, k, rest, rfl, ha, hb, hc, hd, he, hf, hg, hk, hrest⟩
  · exact absurd h (by simp)

/-- A trim-fixed line passing the strict test is a fixed point of
`cleanRepeatedChars`. -/
lemma clean_of_strict {t : Str} (hs : strictDateCheck t = true) (htr : jsTrim t = t) :
    cleanRepeatedChars t = t := by
  obtain ⟨a, b, c, d, e, f, g, k, rest, hteq, ha, hb, hc, hd, he, hf, hg, hk, hrest⟩ :=
    strict_shape hs
  have hmkt : ¬ ¬ (t.any isDateMarker = true) := by
    intro hn
    apply hn
    rw [List.any_eq_true]
    exact ⟨'年', by rw [hteq]; simp, by decide⟩
  have hmda0 : matchDateAt ([a, b, c, d] ++ '年' :: ([e, f] ++ '月' :: ([g, k] ++ '日' :: rest))) =
      some ([a, b, c, d], [e, f], [g, k], rest) :=
    matchDateAt_token (by simp)
      (by intro x hx; simp at hx; rcases hx with rfl | rfl | rfl | rfl <;> assumption)
      (by simp)
      (by intro x hx; simp at hx; rcases hx with rfl | rfl <;> assumption)
      (by simp)
      (by intro x hx; simp at hx; rcases hx with rfl | rfl <;> assumption)
      (by decide) (by decide) rest
  have hmda : matchDateAt t = some ([a, b, c, d], [e, f], [g, k], rest) := by
    rw [hteq]
    exact hmda0
  have hfdt : findDateMatch t = some ([], [a, b, c, d], [e, f], [g, k], rest) := by
    rw [hteq] at hmda
    rw [hteq, findDateMatch.eq_def]
    dsimp only
    rw [hmda]
  have hrest2 := clean_result hfdt hmkt
  rw [hrest2]
  have hcp1 : cleanPart 4 [a, b, c, d] = [a, b, c, d] := cleanPart_short (by simp)
  have hcp2 : cleanPart 2 [e, f] = [e, f] := cleanPart_short (by simp)
  have hcp3 : cleanPart 2 [g, k] = [g, k] := cleanPart_short (by simp)
  rw [hcp1, hcp2, hcp3]
  have hback : ([] : Str) ++ ([a, b, c, d] ++ '年' :: ([e, f] ++ '月' :: ([g, k] ++ ['日']))) ++
      rest = t := by
    rw [hteq]
    simp
  rw [hback, htr, if_pos hs]

/-! ## Claim C1 -/

/-- C1: the claim states that `parseTxtDiary` on the Scenario-A two-line input
returns one entry with `weather = "晴"`, `temperature = "4°C"` and
`location = "苏州市"`.  The code does not do this: in `DATE_LINE_REGEX` the
weather group `([^·]*?)?` is a lazy optional (it prefers to capture nothing),
the temperature group `(-?\d+℃)?` then fails at `晴` and is skipped, and the
greedy tail `(.+)?` swallows the whole remainder, so the first successful
backtracking path captures weather = `""` (`|| undefined` turns it into
`undefined`), temperature = `undefined`, and location = `"晴 · 4℃ · 苏州市"`.
Date, weekday and content come out as claimed.  This theorem records the
actual behaviour at the claimed input. -/
theorem txt_scenario_a_actual :
    parseTxtDiary (str "2025年02月08日 周六 · 晴 · 4℃ · 苏州市\n今天天气不错\n") =
      { entries := [{ date := str "2025-02-08", weekday := str "周六",
                      time := none, weather := none, temperature := none,
                      location := some (str "晴 · 4℃ · 苏州市"),
                      content := str "今天天气不错" }],
        errors := [], entryLineRanges := none } := by
  decide

/-! ## Claim C2 -/

/-- C2 counterexample: the claim states that whenever some range's line index
has no page-number entry, the tracker emits no pair at all.  With one entry,
range list `[(5, 5)]` and a one-page map `[1]`, the length guard
`entryLineRanges.length === entries.length` passes, so the code does emit a
pair, with both page components `undefined`. -/
theorem tracker_out_of_range_counterexample :
    computeEntryPageRanges [{ date := str "2025-01-02", weekday := [], content := str "x" }]
        (some [(5, 5)]) [1] = [(none, none)] ∧
    computeEntryPageRanges [{ date := str "2025-01-02", weekday := [], content := str "x" }]
        (some [(5, 5)]) [1] ≠ [] := by
  decide

/-- C2 amended: the tracker is skipped (produces no pairs) exactly when
`entryLineRanges` is absent or its length differs from `entries.length`; when
the lengths agree it emits one pair per entry by indexing the page map, an
out-of-range line index yielding an unset (`undefined`) page component rather
than a skip or a crash. -/
theorem tracker_skip_amended (es : List DiaryEntry) (rs : List (Nat × Nat))
    (l2p : List Nat) :
    (rs.length ≠ es.length → computeEntryPageRanges es (some rs) l2p = []) ∧
    computeEntryPageRanges es none l2p = [] ∧
    (rs.length = es.length →
      (computeEntryPageRanges es (some rs) l2p).length = es.length ∧
      ∀ p ∈ computeEntryPageRanges es (some rs) l2p,
        ∃ r ∈ rs, p = (l2p.get? r.1, l2p.get? r.2)) := by
  refine ⟨fun h => ?_, rfl, fun h => ⟨?_, fun p hp => ?_⟩⟩
  · simp [computeEntryPageRanges, h]
  · simp [computeEntryPageRanges, h]
  · simp only [computeEntryPageRanges, if_pos h, List.mem_map] at hp
    obtain ⟨r, hr, hrp⟩ := hp
    exact ⟨r, hr, hrp.symm⟩

theorem tracker_skip_amended_witness :
    computeEntryPageRanges [] (some [(0, 0)]) [] = [] ∧
    computeEntryPageRanges [] none [] = [] ∧
    (computeEntryPageRanges
        [{ date := str "2025-01-02", weekday := [], content := str "x" }]
        (some [(0, 1)]) [3, 4]).length = 1 :=
  ⟨(tracker_skip_amended [] [(0, 0)] []).1 (by decide),
   (tracker_skip_amended [] [] []).2.1,
   ((tracker_skip_amended
        [{ date := str "2025-01-02", weekday := [], content := str "x" }]
        [(0, 1)] [3, 4]).2.2 (by decide)).1⟩

/-! ## Claim C3 counterexample -/

/-- C3 counterexample: the claim quantifies over both parsers, but
`parseTxtDiary` joins the accumulated body lines verbatim and only trims the
ends, so an interior run of two consecutive blank lines survives into
`content`. -/
theorem content_blank_runs_counterexample :
    ((parseTxtDiary (str "2025年01月02日 周四\nA\n\n\nB")).entries.all
        (fun e => contentBlankRunsOk e.content)) = false ∧
    (parseTxtDiary (str "2025年01月02日 周四\nA\n\n\nB")).entries.map (·.content) =
      [str "A\n\n\nB"] := by
  decide

/-! ## Claim C7 -/

/-- C7: in the PDF reflow, a blank body line closes the current paragraph
exactly when the last accumulated line is not an info line and ends in
sentence-terminal punctuation; otherwise the blank line leaves the reflow
state unchanged.  Scenario C: body lines `第一句。`, blank, `第二句。` produce
`第一句。\n\n第二句。`. -/
theorem blank_line_break_iff :
    (∀ (ls : List Str) (l ll : Str) (p : List Str),
        jsTrim l = [] →
        (ls.foldl mergeStep (([], []) : MergeSt)).2 = ll :: p →
        isInfoLine ll = false → sentenceEnd ll = true →
        (ls ++ [l]).foldl mergeStep (([], []) : MergeSt) =
          ((ll :: p) :: (ls.foldl mergeStep (([], []) : MergeSt)).1, [])) ∧
    (∀ (ls : List Str) (l : Str),
        jsTrim l = [] →
        (∀ ll p, (ls.foldl mergeStep (([], []) : MergeSt)).2 = ll :: p →
          isInfoLine ll = true ∨ sentenceEnd ll = false) →
        (ls ++ [l]).foldl mergeStep (([], []) : MergeSt) =
          ls.foldl mergeStep (([], []) : MergeSt)) ∧
    (parsePdfDiary
        (str "2025年02月08日\n周六·21:55·晴·4°C·苏州市\n第一句。\n\n第二句。")).entries.map
        (·.content) = [str "第一句。\n\n第二句。"] := by
  refine ⟨fun ls l ll p hl hcur hinfo hsent => ?_, fun ls l hl hno => ?_, by decide⟩
  · rw [List.foldl_append]
    simp [mergeStep, hl, hcur, hinfo, hsent]
  · rw [List.foldl_append]
    rcases hcur : (ls.foldl mergeStep (([], []) : MergeSt)).2 with _ | ⟨ll, p⟩
    · simp [mergeStep, hl, hcur]
    · rcases hno ll p hcur with h | h <;>
        simp [mergeStep, hl, hcur, h, Prod.ext_iff]

theorem blank_line_break_iff_witness :
    ([str "第一句。"] ++ [([] : Str)]).foldl mergeStep (([], []) : MergeSt) =
      ([[str "第一句。"]], []) := by
  have h := blank_line_break_iff.1 [str "第一句。"] [] (str "第一句。") []
    (by decide) (by decide) (by decide) (by decide)
  simpa using h

/-! ## Claim C8 -/

/-- C8: in the PDF reflow, a non-blank non-info line whose predecessor in the
current paragraph is not an info line and does not end in sentence-terminal
punctuation is appended directly onto that predecessor with no separator.
Scenario B: date header, metadata line, then `今天`, `很好。` produce
`今天很好。`. -/
theorem hard_wrap_rejoin :
    (∀ (ls : List Str) (l ll : Str) (p : List Str),
        jsTrim l ≠ [] → isInfoLine l = false →
        (ls.foldl mergeStep (([], []) : MergeSt)).2 = ll :: p →
        isInfoLine ll = false → sentenceEnd ll = false →
        (ls ++ [l]).foldl mergeStep (([], []) : MergeSt) =
          ((ls.foldl mergeStep (([], []) : MergeSt)).1, (ll ++ jsTrim l) :: p)) ∧
    (parsePdfDiary
        (str "2025年02月08日\n周六·21:55·晴·4°C·苏州市\n今天\n很好。")).entries.map
        (·.content) = [str "今天很好。"] := by
  refine ⟨fun ls l ll p hl hli hcur hinfo hsent => ?_, by decide⟩
  rw [List.foldl_append]
  simp [mergeStep, hl, hli, hcur, hinfo, hsent]

theorem hard_wrap_rejoin_witness :
    ([str "今天"] ++ [str "很好。"]).foldl mergeStep (([], []) : MergeSt) =
      ([], [str "今天很好。"]) := by
  have h := hard_wrap_rejoin.1 [str "今天"] (str "很好。") (str "今天") []
    (by decide) (by decide) (by decide) (by decide) (by decide)
  simpa using h

/-! ## Claim C9 counterexample -/

/-- C9 counterexample: the claim asserts a diagnostic for every non-metadata,
non-blank line directly after a date header, but a second date header is such
a line and produces no diagnostic: it silently starts a new entry, the first
entry is dropped (its body is empty), and the line does not become body
text. -/
theorem missing_metadata_counterexample :
    parsePdfDiary (str "2025年01月02日\n2025年01月03日\n周六·21:55·晴·4°C·苏州市\n好。") =
      { entries := [{ date := str "2025-01-03", weekday := str "周六",
                      time := some (str "21:55"), weather := some (str "晴"),
                      temperature := some (str "4°C"),
                      location := some (str "苏州市"), content := str "好。" }],
        errors := [], entryLineRanges := some [(1, 3)] } := by
  decide

/-- C9 (amended): whenever a date header line, anywhere in the input, is
immediately followed by a line whose repaired form is not itself recognized
as a date header, does not match the metadata pattern, and is not blank, one
diagnostic recording the missing metadata is appended to the errors accrued
so far, the entry is kept with its date and empty weekday, and the repaired,
trimmed form of the offending line becomes the first accumulated body line:
a prefix of the entry's content. -/
theorem missing_metadata_amended (pls : List Str) (d b : Str) (rest : List Str) (caps : Caps)
    (hd : pdfDetectDate (cleanRepeatedChars d) = some caps)
    (hb1 : pdfDetectDate (cleanRepeatedChars b) = none)
    (hb2 : reFull PDF_METADATA_RE (cleanRepeatedChars b) = none)
    (hb3 : jsTrim (cleanRepeatedChars b) ≠ [])
    (hnl : ∀ l ∈ pls ++ d :: b :: rest, '\n' ∉ l) :
    (∃ u, (parsePdfDiary (joinNl (pls ++ d :: b :: rest))).errors =
        (pdfLoop 0 initPdfSt pls).errors ++
          mkMetaError (dateOfCaps caps) (cleanRepeatedChars b) :: u) ∧
    ∃ e, e ∈ (parsePdfDiary (joinNl (pls ++ d :: b :: rest))).entries ∧
      e.date = dateOfCaps caps ∧ e.weekday = [] ∧
      ∃ t, e.content = jsTrim (cleanRepeatedChars b) ++ t := by
  have hsplit : splitNl (joinNl (pls ++ d :: b :: rest)) = pls ++ d :: b :: rest :=
    splitNl_joinNl _ (by simp) hnl
  have hres : parsePdfDiary (joinNl (pls ++ d :: b :: rest)) =
      { entries := (pdfFlush (pdfLoop 0 initPdfSt (pls ++ d :: b :: rest))
          ((pls ++ d :: b :: rest).length - 1)).entries,
        errors := (pdfFlush (pdfLoop 0 initPdfSt (pls ++ d :: b :: rest))
          ((pls ++ d :: b :: rest).length - 1)).errors,
        entryLineRanges := some ((pdfFlush (pdfLoop 0 initPdfSt (pls ++ d :: b :: rest))
          ((pls ++ d :: b :: rest).length - 1)).ranges) } := by
    simp only [parsePdfDiary]
    rw [hsplit]
  have hdecomp : pdfLoop 0 initPdfSt (pls ++ d :: b :: rest) =
      pdfLoop pls.length (pdfLoop 0 initPdfSt pls) (d :: b :: rest) := by
    rw [pdfLoop_append_list, Nat.zero_add]
  rw [hres, hdecomp]
  dsimp only
  exact pdf_meta_miss_run (pdfLoop 0 initPdfSt pls) pls.length d b rest caps
    ((pls ++ d :: b :: rest).length - 1) hd hb1 hb2 hb3
    (hnl b (List.mem_append_right _ (List.mem_cons_of_mem d (List.mem_cons_self b rest))))
    (fun x hx => hnl x (List.mem_append_right _
      (List.mem_cons_of_mem d (List.mem_cons_of_mem b hx))))

/-- Witness for C9 at a concrete Scenario-E input whose header is not the
first line. -/
theorem missing_metadata_amended_witness :
    (∃ u, (parsePdfDiary (joinNl ([str "前言"] ++
        str "2025年01月03日" :: str "好。" :: []))).errors =
        (pdfLoop 0 initPdfSt [str "前言"]).errors ++
          mkMetaError (dateOfCaps [(3, str "03"), (2, str "01"), (1, str "2025")])
            (cleanRepeatedChars (str "好。")) :: u) ∧
    ∃ e, e ∈ (parsePdfDiary (joinNl ([str "前言"] ++
        str "2025年01月03日" :: str "好。" :: []))).entries ∧
      e.date = dateOfCaps [(3, str "03"), (2, str "01"), (1, str "2025")] ∧ e.weekday = [] ∧
      ∃ t, e.content = jsTrim (cleanRepeatedChars (str "好。")) ++ t :=
  missing_metadata_amended [str "前言"] (str "2025年01月03日") (str "好。") []
    [(3, str "03"), (2, str "01"), (1, str "2025")]
    (by decide) (by decide) (by decide) (by decide) (by decide)

/-! ## Claim C10: a blank line after the date header consumes the metadata
expectation -/

/-- C10: if the line right after a date header is blank after repair (that
is, whitespace-only), the parser silently stops expecting a metadata line:
over the three lines header, blank, well-formed metadata line, no diagnostic
is appended to `errors`, and the metadata line is never parsed as metadata —
it is accumulated as body text and emitted as its own one-line paragraph
(it is an info line), while the entry's weekday remains empty and time,
weather, temperature and location stay unset. -/
theorem blank_after_header_behavior (d bl m : Str) (caps mcaps : Caps)
    (hd : pdfDetectDate (cleanRepeatedChars d) = some caps)
    (hbl1 : pdfDetectDate (cleanRepeatedChars bl) = none)
    (hbl2 : reFull PDF_METADATA_RE (cleanRepeatedChars bl) = none)
    (hbl3 : jsTrim (cleanRepeatedChars bl) = [])
    (hm1 : pdfDetectDate (cleanRepeatedChars m) = none)
    (hm2 : reFull PDF_METADATA_RE (cleanRepeatedChars m) = some mcaps)
    (hm3 : isInfoLine (cleanRepeatedChars m) = true)
    (hm4 : jsTrim (cleanRepeatedChars m) ≠ [])
    (hnl : ∀ l ∈ [d, bl, m], '\n' ∉ l) :
    parsePdfDiary (joinNl [d, bl, m]) =
      { entries := [{ date := dateOfCaps caps, weekday := [], time := none,
                      weather := none, temperature := none, location := none,
                      content := jsTrim (cleanRepeatedChars m) }],
        errors := [],
        entryLineRanges := some [(0, 2)] } := by
  have hsplit : splitNl (joinNl [d, bl, m]) = [d, bl, m] :=
    splitNl_joinNl _ (by simp) hnl
  have h1 : pdfStep 0 initPdfSt d =
      ({ entries := [], errors := [], ranges := [],
         current := some { date := dateOfCaps caps, weekday := [] },
         currentStartLine := 0, contentLines := [],
         expectingMetadata := true } : PdfSt) := by
    unfold pdfStep
    rw [hd]
    rfl
  have h2 : pdfStep 1
      ({ entries := [], errors := [], ranges := [],
         current := some { date := dateOfCaps caps, weekday := [] },
         currentStartLine := 0, contentLines := [],
         expectingMetadata := true } : PdfSt) bl =
      ({ entries := [], errors := [], ranges := [],
         current := some { date := dateOfCaps caps, weekday := [] },
         currentStartLine := 0, contentLines := [cleanRepeatedChars bl],
         expectingMetadata := false } : PdfSt) := by
    unfold pdfStep
    rw [hbl1]
    show pdfNonDateBranch _ (cleanRepeatedChars bl) = _
    unfold pdfNonDateBranch
    rw [hbl2]
    simp [hbl3, pushContent]
  have h3 : pdfStep 2
      ({ entries := [], errors := [], ranges := [],
         current := some { date := dateOfCaps caps, weekday := [] },
         currentStartLine := 0, contentLines := [cleanRepeatedChars bl],
         expectingMetadata := false } : PdfSt) m =
      ({ entries := [], errors := [], ranges := [],
         current := some { date := dateOfCaps caps, weekday := [] },
         currentStartLine := 0,
         contentLines := [cleanRepeatedChars bl, cleanRepeatedChars m],
         expectingMetadata := false } : PdfSt) := by
    unfold pdfStep
    rw [hm1]
    show pdfNonDateBranch _ (cleanRepeatedChars m) = _
    unfold pdfNonDateBranch
    simp [pushContent]
  have hloop : pdfLoop 0 initPdfSt [d, bl, m] =
      ({ entries := [], errors := [], ranges := [],
         current := some { date := dateOfCaps caps, weekday := [] },
         currentStartLine := 0,
         contentLines := [cleanRepeatedChars bl, cleanRepeatedChars m],
         expectingMetadata := false } : PdfSt) := by
    show pdfLoop 1 (pdfStep 0 initPdfSt d) [bl, m] = _
    rw [h1]
    show pdfLoop 2 (pdfStep 1 _ bl) [m] = _
    rw [h2]
    show pdfLoop 3 (pdfStep 2 _ m) [] = _
    rw [h3]
    rfl
  have hfold : [cleanRepeatedChars bl, cleanRepeatedChars m].foldl mergeStep ([], []) =
      ([[jsTrim (cleanRepeatedChars m)]], []) := by
    show mergeStep (mergeStep ([], []) (cleanRepeatedChars bl)) (cleanRepeatedChars m) = _
    have hs1 : mergeStep (([], []) : MergeSt) (cleanRepeatedChars bl) = ([], []) := by
      simp [mergeStep, hbl3]
    rw [hs1]
    simp [mergeStep, hm4, hm3]
  have hmerge : mergeContentLinesToParagraphs [cleanRepeatedChars bl, cleanRepeatedChars m] =
      jsTrim (cleanRepeatedChars m) := by
    unfold mergeContentLinesToParagraphs
    rw [if_neg (by simp)]
    rw [hfold, mergeOut_single _ hm4]
  simp only [parsePdfDiary]
  rw [hsplit, hloop]
  simp only [pdfFlush, hmerge, jsTrim_idem, hm4]
  simp [jsTrim_idem, hm4]

/-- Witness for C10 at a concrete header–blank–metadata input. -/
theorem blank_after_header_behavior_witness :
    parsePdfDiary (joinNl [str "2025年01月02日", str "   ", str "周六·21:55·晴·4°C·苏州市"]) =
      { entries := [{ date := dateOfCaps [(3, str "02"), (2, str "01"), (1, str "2025")],
                      weekday := [], time := none, weather := none, temperature := none,
                      location := none,
                      content := jsTrim (cleanRepeatedChars (str "周六·21:55·晴·4°C·苏州市")) }],
        errors := [],
        entryLineRanges := some [(0, 2)] } :=
  blank_after_header_behavior (str "2025年01月02日") (str "   ")
    (str "周六·21:55·晴·4°C·苏州市")
    [(3, str "02"), (2, str "01"), (1, str "2025")]
    [(5, str "苏州市"), (4, str "4°C"), (3, str "晴"), (2, str "21:55"), (1, str "周六")]
    (by decide) (by decide) (by decide) (by decide) (by decide) (by decide) (by decide)
    (by decide) (by decide)

/-- Loop invariant of `parsePdfDiary` before processing line index `i`. -/
def pdfInv (i : Nat) (st : PdfSt) : Prop :=
  st.entries.length = st.ranges.length ∧
  (st.ranges.map Prod.fst).Pairwise (· < ·) ∧
  (∀ r ∈ st.ranges, r.1 < st.currentStartLine) ∧
  (st.current = none → st.ranges = []) ∧
  (st.current.isSome = true → st.currentStartLine < i)

lemma pdfFlush_inv (st : PdfSt) (n : Nat)
    (h1 : st.entries.length = st.ranges.length)
    (h2 : (st.ranges.map Prod.fst).Pairwise (· < ·))
    (h3 : ∀ r ∈ st.ranges, r.1 < st.currentStartLine) :
    (pdfFlush st n).entries.length = (pdfFlush st n).ranges.length ∧
    ((pdfFlush st n).ranges.map Prod.fst).Pairwise (· < ·) ∧
    (∀ r ∈ (pdfFlush st n).ranges, r.1 ≤ st.currentStartLine) := by
  rcases pdfFlush_shape st n with h | ⟨e, c, hc, h⟩
  · rw [h]
    exact ⟨h1, h2, fun r hr => le_of_lt (h3 r hr)⟩
  · rw [h]
    refine ⟨by simp [h1], ?_, ?_⟩
    · rw [List.map_append, List.pairwise_append]
      refine ⟨h2, List.pairwise_singleton _ _, ?_⟩
      intro a ha b hb
      simp only [List.map_cons, List.map_nil, List.mem_singleton] at hb
      subst hb
      obtain ⟨r, hr, hra⟩ := List.mem_map.mp ha
      exact hra ▸ h3 r hr
    · intro r hr
      rcases List.mem_append.mp hr with hr | hr
      · exact le_of_lt (h3 r hr)
      · simp only [List.mem_singleton] at hr
        subst hr
        exact le_refl _

lemma pushContent_fields (st : PdfSt) (l : Str) :
    (pushContent st l).entries = st.entries ∧ (pushContent st l).ranges = st.ranges ∧
    (pushContent st l).currentStartLine = st.currentStartLine ∧
    (pushContent st l).current = st.current := by
  unfold pushContent
  split <;> simp

lemma pdfDateBranch_inv (i : Nat) (st : PdfSt) (caps : Caps) (h : pdfInv i st) :
    pdfInv (i + 1) (pdfDateBranch i st caps) := by
  obtain ⟨h1, h2, h3, h4, h5⟩ := h
  have h3' : ∀ r ∈ st.ranges, r.1 < i := by
    intro r hr
    rcases hc : st.current with _ | e
    · rw [h4 hc] at hr
      exact absurd hr (List.not_mem_nil r)
    · exact lt_trans (h3 r hr) (h5 (by rw [hc]; rfl))
  obtain ⟨f1, f2, f3⟩ := pdfFlush_inv st (i - 1) h1 h2 h3
  unfold pdfInv pdfDateBranch
  refine ⟨f1, f2, ?_, ?_, fun _ => Nat.lt_succ_self i⟩
  · intro r hr
    rcases pdfFlush_shape st (i - 1) with hs | ⟨e, c, hc, hs⟩
    · rw [hs] at hr
      exact h3' r hr
    · rw [hs] at hr
      rcases List.mem_append.mp hr with hr | hr
      · exact h3' r hr
      · simp only [List.mem_singleton] at hr
        subst hr
        exact h5 (by rw [hc]; rfl)
  · intro hx
    exact absurd hx (by simp)

lemma pdfNonDateBranch_inv (i : Nat) (st : PdfSt) (l : Str) (h : pdfInv i st) :
    pdfInv (i + 1) (pdfNonDateBranch st l) := by
  obtain ⟨h1, h2, h3, h4, h5⟩ := h
  have core : ∀ st' : PdfSt,
      st'.entries = st.entries → st'.ranges = st.ranges →
      st'.currentStartLine = st.currentStartLine → st'.current.isSome = st.current.isSome →
      pdfInv (i + 1) st' := by
    intro st' he hr hcsl hcur
    refine ⟨by rw [he, hr]; exact h1, by rw [hr]; exact h2,
      by rw [hr, hcsl]; exact h3, ?_, ?_⟩
    · intro hn
      rw [hr]
      rcases hsc : st.current with _ | e
      · exact h4 hsc
      · rw [hn, hsc] at hcur
        simp at hcur
    · intro hs
      rw [hcsl]
      exact lt_trans (h5 (by rw [← hcur]; exact hs)) (Nat.lt_succ_self i)
  unfold pdfNonDateBranch
  by_cases hem : st.expectingMetadata = true ∧ st.current.isSome = true
  · rw [if_pos hem]
    cases hm : reFull PDF_METADATA_RE l with
    | some mcaps =>
      refine core _ rfl rfl rfl ?_
      simp
    | none =>
      obtain ⟨pe, pr, pc, pu⟩ := pushContent_fields
        { st with
          errors := if jsTrim l = [] then st.errors
            else st.errors ++ [mkMetaError ((st.current.map (·.date)).getD []) l],
          expectingMetadata := false } l
      exact core _ pe pr pc (by rw [pu])
  · rw [if_neg hem]
    obtain ⟨pe, pr, pc, pu⟩ := pushContent_fields st l
    exact core _ pe pr pc (by rw [pu])

lemma pdfStep_inv (i : Nat) (st : PdfSt) (l : Str) (h : pdfInv i st) :
    pdfInv (i + 1) (pdfStep i st l) := by
  unfold pdfStep
  cases hd : pdfDetectDate (cleanRepeatedChars l)
  case some caps => exact pdfDateBranch_inv i st caps h
  case none => exact pdfNonDateBranch_inv i st (cleanRepeatedChars l) h

lemma pdfLoop_inv (ls : List Str) :
    ∀ (i : Nat) (st : PdfSt), pdfInv i st → pdfInv (i + ls.length) (pdfLoop i st ls) := by
  induction ls with
  | nil => intro i st h; simpa using h
  | cons l ls ih =>
    intro i st h
    have := ih (i + 1) (pdfStep i st l) (pdfStep_inv i st l h)
    simpa [pdfLoop, Nat.add_comm, Nat.add_assoc, Nat.add_left_comm] using this

lemma initPdfSt_inv : pdfInv 0 initPdfSt := by
  refine ⟨rfl, List.Pairwise.nil, ?_, fun _ => rfl, ?_⟩
  · intro r hr
    exact absurd hr (List.not_mem_nil r)
  · intro h
    cases h

/-- C4: for every input string, `parsePdfDiary` returns line ranges parallel
to the entry list (`entries.length = entryLineRanges.length`), and the
`startLine` components are strictly increasing across the sequence. -/
theorem pdf_ranges_aligned_increasing (s : Str) :
    ∃ rs, (parsePdfDiary s).entryLineRanges = some rs ∧
      (parsePdfDiary s).entries.length = rs.length ∧
      (rs.map Prod.fst).Pairwise (· < ·) := by
  unfold parsePdfDiary
  obtain ⟨h1, h2, h3, _, _⟩ := pdfLoop_inv (splitNl s) 0 initPdfSt initPdfSt_inv
  obtain ⟨f1, f2, _⟩ :=
    pdfFlush_inv (pdfLoop 0 initPdfSt (splitNl s)) ((splitNl s).length - 1) h1 h2 h3
  exact ⟨_, rfl, f1, f2⟩

/-- C3 amended: every entry produced by `parsePdfDiary` has content with no
leading or trailing blank lines and no blank-line run longer than one line;
every entry produced by `parseTxtDiary` has content with no leading or
trailing blank lines.  (The TXT dialect joins body lines verbatim, so interior
blank-line runs survive there — see the counterexample.) -/
theorem content_blank_lines_amended (s : Str) :
    (∀ e ∈ (parsePdfDiary s).entries,
      contentEdgesOk e.content = true ∧ contentBlankRunsOk e.content = true) ∧
    (∀ e ∈ (parseTxtDiary s).entries, contentEdgesOk e.content = true) := by
  constructor
  · intro e he
    have hinv : pdfC3Inv (pdfLoop 0 initPdfSt (splitNl s)) :=
      pdfLoop_c3 (splitNl s) (splitNl_mem_no_nl s) 0 initPdfSt
        ⟨by simp [initPdfSt], by simp [initPdfSt]⟩
    exact pdfFlush_c3 hinv ((splitNl s).length - 1) e he
  · intro e he
    have hinv : txtC3Inv ((splitNl s).foldl txtStep ⟨[], none, []⟩) :=
      txtFold_c3 (splitNl s) ⟨[], none, []⟩
        (fun e0 he0 => absurd he0 (List.not_mem_nil e0))
    exact txtFlush_c3 hinv e he

theorem content_blank_lines_amended_witness :
    contentEdgesOk (str "今天很好。") = true ∧
    contentBlankRunsOk (str "今天很好。") = true :=
  (content_blank_lines_amended
      (str "2025年02月08日\n周六·21:55·晴·4°C·苏州市\n今天\n很好。")).1
    { date := str "2025-02-08", weekday := str "周六", time := some (str "21:55"),
      weather := some (str "晴"), temperature := some (str "4°C"),
      location := some (str "苏州市"), content := str "今天很好。" }
    (by decide)

/-! ## Claim C5 -/

/-- C5: the corrupted token `2025202520252025年02020202⽉08080808⽇` (with
Kangxi-radical month/day glyphs) is repaired to the canonical
`2025年02月08日`, and `parsePdfDiary` classifies the repaired line as a date
header that starts a new entry dated `2025-02-08` (spanning from its line). -/
theorem corruption_repair_scenario_d :
    cleanRepeatedChars (str "2025202520252025年02020202⽉08080808⽇") =
      str "2025年02月08日" ∧
    parsePdfDiary
        (str "2025202520252025年02020202⽉08080808⽇\n周六·21:55·晴·4°C·苏州市\n今天天气不错。") =
      { entries := [{ date := str "2025-02-08", weekday := str "周六",
                      time := some (str "21:55"), weather := some (str "晴"),
                      temperature := some (str "4°C"),
                      location := some (str "苏州市"), content := str "今天天气不错。" }],
        errors := [], entryLineRanges := some [(0, 2)] } := by
  constructor
  · decide
  · decide

/-! ## Claim C6: idempotence of Corruption Repair -/

/-- C6: `cleanRepeatedChars` is idempotent: repairing its own output returns
it unchanged, for every input line.  If the input has no date marker or no
date-pattern match, repair is the identity and the claim is trivial;
otherwise the output is either the strict-form trimmed token (a fixed point
by `clean_of_strict`) or the repaired line, on which the leftmost
date-pattern match recurs at the same position with already-short digit
groups, so the second pass rebuilds the same string. -/
theorem cleanRepeatedChars_idempotent (s : Str) :
    cleanRepeatedChars (cleanRepeatedChars s) = cleanRepeatedChars s := by
  by_cases hmk : ¬ (s.any isDateMarker = true)
  · have h1 : cleanRepeatedChars s = s := by
      unfold cleanRepeatedChars
      rw [if_pos hmk]
    rw [h1]
    exact h1
  · rcases hfd : findDateMatch s with _ | ⟨⟨pre, y, m, d, suf⟩⟩
    · have h1 : cleanRepeatedChars s = s := by
        unfold cleanRepeatedChars
        rw [if_neg hmk, hfd]
      rw [h1]
      exact h1
    · obtain ⟨mk, dk, hmkc, hdkc, heq, hy, hyd, hm, hmd, hdne, hdd⟩ := findDateMatch_sound hfd
      have hmin := findDateMatch_min hfd
      have hres := clean_result hfd hmk
      by_cases hstrict : strictDateCheck (jsTrim (pre ++ (cleanPart 4 y ++ '年' ::
          (cleanPart 2 m ++ '月' :: (cleanPart 2 d ++ ['日']))) ++ suf)) = true
      · rw [hres, if_pos hstrict]
        exact clean_of_strict hstrict (jsTrim_idem _)
      · rw [hres, if_neg hstrict]
        have hYne : cleanPart 4 y ≠ [] := cleanPart_nonempty (by omega) hy
        have hYd : ∀ c ∈ cleanPart 4 y, isDig c = true := cleanPart_digs hyd
        have hMne : cleanPart 2 m ≠ [] := cleanPart_nonempty (by omega) hm
        have hMd : ∀ c ∈ cleanPart 2 m, isDig c = true := cleanPart_digs hmd
        have hDne : cleanPart 2 d ≠ [] := cleanPart_nonempty (by omega) hdne
        have hDd : ∀ c ∈ cleanPart 2 d, isDig c = true := cleanPart_digs hdd
        have hmk2 : ¬ ¬ ((pre ++ (cleanPart 4 y ++ '年' ::
            (cleanPart 2 m ++ '月' :: (cleanPart 2 d ++ ['日']))) ++ suf).any
              isDateMarker = true) := by
          intro hn
          apply hn
          rw [List.any_eq_true]
          refine ⟨'年', ?_, by decide⟩
          refine List.mem_append.mpr (Or.inl ?_)
          refine List.mem_append.mpr (Or.inr ?_)
          exact List.mem_append.mpr (Or.inr (List.mem_cons_self _ _))
        have hnorm : (cleanPart 4 y ++ '年' ::
            (cleanPart 2 m ++ '月' :: (cleanPart 2 d ++ ['日']))) ++ suf =
            cleanPart 4 y ++ '年' :: (cleanPart 2 m ++ '月' :: (cleanPart 2 d ++ '日' :: suf)) := by
          simp [List.append_assoc]
        have hmin2 : ∀ j, j < pre.length →
            matchDateAt (List.drop j (pre ++ (cleanPart 4 y ++ '年' ::
              (cleanPart 2 m ++ '月' :: (cleanPart 2 d ++ ['日']))) ++ suf)) = none := by
          intro j hj
          have horig := hmin j hj
          rw [heq, List.drop_append_of_le_length (le_of_lt hj)] at horig
          rw [List.append_assoc, List.drop_append_of_le_length (le_of_lt hj), hnorm]
          exact matchDateAt_isSome_congr hy hyd hm hmd hdne hdd hYne hYd hMne hMd hDne hDd
            hmkc hdkc (by decide) (by decide) horig
        have hmda2 : matchDateAt ((cleanPart 4 y ++ '年' ::
            (cleanPart 2 m ++ '月' :: (cleanPart 2 d ++ ['日']))) ++ suf) =
            some (cleanPart 4 y, cleanPart 2 m, cleanPart 2 d, suf) := by
          rw [hnorm]
          exact matchDateAt_token hYne hYd hMne hMd hDne hDd (by decide) (by decide) suf
        have hfd2 : findDateMatch (pre ++ (cleanPart 4 y ++ '年' ::
            (cleanPart 2 m ++ '月' :: (cleanPart 2 d ++ ['日']))) ++ suf) =
            some (pre, cleanPart 4 y, cleanPart 2 m, cleanPart 2 d, suf) := by
          rw [List.append_assoc]
          refine findDateMatch_build (fun j hj => ?_) hmda2
          have hj2 := hmin2 j hj
          rw [List.append_assoc] at hj2
          exact hj2
        have hres2 := clean_result hfd2 hmk2
        rw [hres2]
        have hcY : cleanPart 4 (cleanPart 4 y) = cleanPart 4 y :=
          cleanPart_short cleanPart_length
        have hcM : cleanPart 2 (cleanPart 2 m) = cleanPart 2 m :=
          cleanPart_short cleanPart_length
        have hcD : cleanPart 2 (cleanPart 2 d) = cleanPart 2 d :=
          cleanPart_short cleanPart_length
        rw [hcY, hcM, hcD]
        rw [if_neg hstrict]

end OneDiary
